import Mathlib

/-!
Shallow embedding of the go-ecs entity-component store (entity.go, prop.go,
universe.go) and proofs about its claims.

The embedding models the sequential semantics of one `Universe` together with
any number of standalone entities.  Pointers are modelled as indices into
append-only heaps: `World.props` is the heap of all allocated `Prop` values
(a Go `*Prop` is a `Nat` index; the nil pointer is `Option.none` where a nil
receiver is possible), `World.entities` the heap of all allocated `Entity`
values, and `World.buckets` the `propDB.data` map from key to bucket.
`sync.Map` fields are modelled as association lists with map semantics
(store replaces, delete removes).  Panics of the Go code are modelled by
`GoResult.panicked`.
-/

namespace Ecs

/-- Payload values stored in a Prop (Go `any` values, modelled opaquely). -/
abbrev Val := Nat

/-- A Prop payload.  Go's `Prop.PutData` collapses its variadic argument:
zero values store nil, one value is stored directly, several are stored as a
slice.  `nil` models the Go nil interface value. -/
inductive Payload where
  | nil
  | one (v : Val)
  | many (vs : List Val)
  deriving DecidableEq, Repr

/-- Result of a Go call that can panic. -/
inductive GoResult (α : Type) where
  | panicked
  | ok (a : α)
  deriving DecidableEq, Repr

/-- The `Prop` struct of prop.go: `e` is the atomic back-pointer to the owning
Entity (`none` = nil), `key` the immutable key, `attached` the atomic liveness
flag, `data` the payload. -/
structure GoProp where
  e : Option Nat
  key : String
  attached : Bool
  data : Payload
  deriving DecidableEq, Repr

/-- The `Entity` struct of entity.go: `u` records whether the entity was made
by `Universe.Entity` (`e.u != nil`; the model has a single universe, so a
Bool suffices), `props` is the `sync.Map` from key to `*Prop`, and `deleted`
the deletion flag. -/
structure Entity where
  u : Bool
  props : List (String × Nat)
  deleted : Bool
  deriving DecidableEq, Repr

/-- The `bucket` struct of universe.go: the slice of `*Prop` references and
the atomic miss counter. -/
structure Bucket where
  data : List Nat
  misses : Nat
  deriving DecidableEq, Repr

/-- The whole store: the heap of allocated Props, the heap of allocated
Entities, and the single universe's `propDB.data` map (key to bucket). -/
structure World where
  props : List GoProp
  entities : List Entity
  buckets : List (String × Bucket)
  deriving DecidableEq, Repr

/-- The empty store: nothing allocated yet. -/
def World.init : World := ⟨[], [], []⟩

/-- List indexing (a Go pointer dereference; `none` = dangling index, which
never occurs for indices handed out by the model). -/
def nth : List α → Nat → Option α
  | [], _ => none
  | a :: _, 0 => some a
  | _ :: l, n + 1 => nth l n

/-- Pointwise list update (writing through a Go pointer). -/
def setNth : List α → Nat → α → List α
  | [], _, _ => []
  | _ :: l, 0, b => b :: l
  | a :: l, n + 1, b => a :: setNth l n b

/-- `sync.Map` lookup on the association-list model. -/
def lookupA : List (String × α) → String → Option α
  | [], _ => none
  | (k, a) :: l, k' => if k' = k then some a else lookupA l k'

/-- `sync.Map` delete: removes the key.  (Map keys are unique, so removing
every pair with the key models a single map-entry removal.) -/
def eraseA (l : List (String × α)) (k : String) : List (String × α) :=
  l.filter (fun kv => kv.1 ≠ k)

/-- `sync.Map` store: replaces any existing entry for the key. -/
def insertA (l : List (String × α)) (k : String) (a : α) : List (String × α) :=
  eraseA l k ++ [(k, a)]

/-- Dereference a Prop heap index. -/
def World.propAt? (w : World) (p : Nat) : Option GoProp := nth w.props p

/-- Dereference an Entity heap index. -/
def World.entAt? (w : World) (e : Nat) : Option Entity := nth w.entities e

/-- Overwrite the Prop at index `p` (no-op on a dangling index). -/
def setProp (w : World) (p : Nat) (st : GoProp) : World :=
  { w with props := setNth w.props p st }

/-- Overwrite the Entity at index `e` (no-op on a dangling index). -/
def setEnt (w : World) (e : Nat) (ent : Entity) : World :=
  { w with entities := setNth w.entities e ent }

/-- `Prop.PutData`'s collapse of the variadic data (prop.go): zero values
store nil, one value is stored directly, more are stored as a slice. -/
def putData : List Val → Payload
  | [] => .nil
  | [v] => .one v
  | vs => .many vs

/-- Write a Prop's payload field (the body of `Prop.PutData` on a non-nil
receiver). -/
def setData (w : World) (p : Nat) (d : Payload) : World :=
  match w.propAt? p with
  | some st => setProp w p { st with data := d }
  | none => w

/-- `Prop.detatch` (sic) of prop.go: clear the attached flag, then the
entity back-pointer. -/
def detatch (w : World) (p : Nat) : World :=
  match w.propAt? p with
  | some st => setProp w p { st with attached := false, e := none }
  | none => w

/-- `Prop.Data`: nil-safe payload read (`none` receiver is the nil `*Prop`). -/
def dataP (w : World) : Option Nat → Payload
  | none => .nil
  | some p =>
    match w.propAt? p with
    | some st => st.data
    | none => .nil

/-- `Prop.Key`: panics on a nil receiver (field access on a nil pointer). -/
def keyP (w : World) : Option Nat → GoResult String
  | none => .panicked
  | some p =>
    match w.propAt? p with
    | some st => .ok st.key
    | none => .panicked

/-- `Prop.Entity`: nil-safe read of the owner back-pointer. -/
def entityP (w : World) : Option Nat → Option Nat
  | none => none
  | some p =>
    match w.propAt? p with
    | some st => st.e
    | none => none

/-- `Prop.Removed`: a nil Prop reports removed; otherwise the negated
attached flag. -/
def removedP (w : World) : Option Nat → Bool
  | none => true
  | some p =>
    match w.propAt? p with
    | some st => !st.attached
    | none => true

/-- `Entity.loadProp` of entity.go (the Entity is known non-nil in the model:
its index was handed out by `newEntity`): nil map entry, removed entry, or a
deleted Entity yield nil. -/
def loadProp (w : World) (e : Nat) (key : String) : Option Nat :=
  match w.entAt? e with
  | none => none
  | some ent =>
    if ent.deleted then none
    else
      match lookupA ent.props key with
      | some p => if removedP w (some p) then none else some p
      | none => none

/-- `Entity.Get` (takes the read lock and calls `loadProp`; sequentially the
lock is irrelevant). -/
def get (w : World) (e : Nat) (key : String) : Option Nat := loadProp w e key

/-- `Entity.Has`: true iff `Get` is non-nil. -/
def has (w : World) (e : Nat) (key : String) : Bool := (get w e key).isSome

/-- `propDB.data` lookup. -/
def lookupBucket (w : World) (key : String) : Option Bucket := lookupA w.buckets key

/-- Replace the bucket stored under `key` (buckets are never deleted, so this
models mutating the bucket object in place). -/
def setBucket (w : World) (key : String) (b : Bucket) : World :=
  { w with buckets := w.buckets.map (fun kv => if kv.1 = key then (key, b) else kv) }

/-- `propDB.getOrCreateBucket`, as the state change it performs: create an
empty bucket for `key` on first use. -/
def ensureBucket (w : World) (key : String) : World :=
  match lookupBucket w key with
  | some _ => w
  | none => { w with buckets := w.buckets ++ [(key, ⟨[], 0⟩)] }

/-- `propDB.append`: get or create the bucket for `key` and append the Prop
reference. -/
def appendDB (w : World) (key : String) (p : Nat) : World :=
  let w₁ := ensureBucket w key
  match lookupBucket w₁ key with
  | some b => setBucket w₁ key { b with data := b.data ++ [p] }
  | none => w₁

/-- `b.misses.Add(1)` on the bucket for `key`. -/
def bumpMisses (w : World) (key : String) : World :=
  match lookupBucket w key with
  | some b => setBucket w key { b with misses := b.misses + 1 }
  | none => w

/-- `Universe.Entity` (`inU = true`) or a standalone `var e Entity`
(`inU = false`): allocate a fresh empty Entity and return its index. -/
def newEntity (w : World) (inU : Bool) : World × Nat :=
  ({ w with entities := w.entities ++ [⟨inU, [], false⟩] }, w.entities.length)

/-- The tail of `Entity.Put` after a fresh Prop `pid` was allocated, attached
and found no live occupant for `key`: store it in the table, append it to the
universe's bucket when the Entity is in the universe, and finally run the
deferred `PutData`. -/
def finishPut (w : World) (ent : Entity) (e : Nat) (key : String) (pid : Nat)
    (data : List Val) : World × Option Nat :=
  let w₂ := setEnt w e { ent with props := insertA ent.props key pid }
  let w₃ := if ent.u then appendDB w₂ key pid else w₂
  (setData w₃ pid (putData data), some pid)

/-- `Entity.Put` on a non-nil Entity (the nil receiver, which panics, is
`putRef`).  A deleted Entity yields nil before the deferred `PutData` is
registered.  Otherwise: a live entry is reused (only its payload is
overwritten by the deferred `PutData`); else a fresh Prop is allocated and
attached, `LoadOrStore` either finds the slot empty or finds a stale entry
(if the found entry were live it would be returned, with the fresh Prop
discarded), the fresh Prop overwrites the slot and is appended to the
universe's bucket, and `PutData` runs last. -/
def put (w : World) (e : Nat) (key : String) (data : List Val) : World × Option Nat :=
  match w.entAt? e with
  | none => (w, none)
  | some ent =>
    if ent.deleted then (w, none)
    else
      match loadProp w e key with
      | some p => (setData w p (putData data), some p)
      | none =>
        let pid := w.props.length
        let w₁ := { w with props := w.props ++ [⟨some e, key, true, .nil⟩] }
        match lookupA ent.props key with
        | some q =>
          if removedP w₁ (some q) then finishPut w₁ ent e key pid data
          else (setData w₁ q (putData data), some q)
        | none => finishPut w₁ ent e key pid data

/-- `Entity.Put` on a possibly-nil Entity handle: panics on nil. -/
def putRef (w : World) (e : Option Nat) (key : String) (data : List Val) :
    GoResult (World × Option Nat) :=
  match e with
  | none => .panicked
  | some e => .ok (put w e key data)

/-- `Entity.Remove`: nil or deleted receivers yield nil without mutation;
otherwise `LoadAndDelete` the table entry and detach it. -/
def remove (w : World) (e : Nat) (key : String) : World × Option Nat :=
  match w.entAt? e with
  | none => (w, none)
  | some ent =>
    if ent.deleted then (w, none)
    else
      match lookupA ent.props key with
      | none => (w, none)
      | some p =>
        let w₁ := setEnt w e { ent with props := eraseA ent.props key }
        (detatch w₁ p, some p)

/-- `Prop.Remove`: a nil Prop is a no-op; otherwise delete the Prop's key
from its owner's table (when the back-pointer is set) and detach. -/
def propRemove (w : World) : Option Nat → World
  | none => w
  | some p =>
    match w.propAt? p with
    | none => w
    | some st =>
      let w₁ :=
        match st.e with
        | some e =>
          match w.entAt? e with
          | some ent => setEnt w e { ent with props := eraseA ent.props st.key }
          | none => w
        | none => w
      detatch w₁ p

/-- Detach every Prop in the list (the `props.Range` of `Entity.Delete`). -/
def detachAll (w : World) (ps : List Nat) : World := ps.foldl detatch w

/-- `Entity.Delete`: a no-op on a nil handle; otherwise mark the Entity
deleted, detach every Prop held in the table, discard the table and unlink
the universe. -/
def delete (w : World) : Option Nat → World
  | none => w
  | some e =>
    match w.entAt? e with
    | none => w
    | some ent =>
      let w₁ := detachAll w (ent.props.map Prod.snd)
      setEnt w₁ e ⟨false, [], true⟩

/-- `bucketMissesBeforeCompact` of universe.go. -/
def bucketMissesBeforeCompact : Nat := 500

/-- The recursion of `goCompactFunc`: walk the tail keeping each element `y`
whose comparison `eq y prev` with its original predecessor is false. -/
def compactFuncTail (eq : α → α → Bool) : α → List α → List α
  | _, [] => []
  | prev, y :: ys => if eq y prev then compactFuncTail eq y ys else y :: compactFuncTail eq y ys

/-- Go's `slices.CompactFunc` (the standard library function used by
`bucket.tryCompact`): keeps the first element, and keeps each later element
`s[k]` exactly when `eq s[k] s[k-1]` is false — the equality function
receives the current element first and its original predecessor second, as
in the standard library's `if eq(s[k], s[k-1])` / x/exp's `if !eq(v, last)`. -/
def goCompactFunc (eq : α → α → Bool) : List α → List α
  | [] => []
  | x :: xs => x :: compactFuncTail eq x xs

/-- `bucket.tryCompact`: below the miss threshold nothing happens; otherwise
drop the leading run of removed Props (the `begin` scan), run
`slices.CompactFunc` with the source's comparison
`func(a, b *Prop) bool { return b.Removed() }` on the rest, and reset the
miss counter. -/
def tryCompact (w : World) (key : String) : World :=
  match lookupBucket w key with
  | none => w
  | some b =>
    if b.misses < bucketMissesBeforeCompact then w
    else
      let tail := b.data.dropWhile (fun p => removedP w (some p))
      setBucket w key
        ⟨goCompactFunc (fun _ b => removedP w (some b)) tail, 0⟩

/-- `bucket.rangeProps`, iterating over the snapshot slice read at `Range`
time.  The callback `fn` may mutate the whole store and reports whether to
continue.  Besides the final store, the model returns the trace of Prop
references actually passed to `fn`, in order: an entry that is removed at
the moment it is visited is skipped and counts a miss on the bucket, and a
false return from `fn` stops the iteration immediately. -/
def rangeProps (key : String) (fn : World → Nat → World × Bool) :
    World → List Nat → World × List Nat
  | w, [] => (w, [])
  | w, p :: ps =>
    if removedP w (some p) then rangeProps key fn (bumpMisses w key) ps
    else
      match fn w p with
      | (w₁, true) =>
        let r := rangeProps key fn w₁ ps
        (r.1, p :: r.2)
      | (w₁, false) => (w₁, [p])

/-- `propDB.Range` (= `Universe.Range`): a no-op when no bucket exists for
the key; otherwise sweep over the snapshot of the bucket's slice taken at
call time, then `tryCompact` the bucket. -/
def range (w : World) (key : String) (fn : World → Nat → World × Bool) :
    World × List Nat :=
  match lookupBucket w key with
  | none => (w, [])
  | some b =>
    let r := rangeProps key fn w b.data
    (tryCompact r.1 key, r.2)

/-- The public mutating operations of the store, used to state "after any
further operations" claims: `Entity.Put`, `Entity.Remove`, `Prop.Remove`,
`Entity.Delete`, allocation of a fresh Entity, and the two internal bucket
mutations a sweep performs around its callback (`misses.Add` and
`tryCompact`).  A `Range` call is exactly a sequence of these together with
its callback's own operations. -/
inductive Op where
  | put (e : Nat) (key : String) (data : List Val)
  | remove (e : Nat) (key : String)
  | propRemove (p : Nat)
  | delete (e : Nat)
  | newEntity (inU : Bool)
  | bumpMiss (key : String)
  | compact (key : String)
  deriving DecidableEq, Repr

/-- Interpret one operation. -/
def applyOp (w : World) : Op → World
  | .put e key data => (put w e key data).1
  | .remove e key => (remove w e key).1
  | .propRemove p => propRemove w (some p)
  | .delete e => delete w (some e)
  | .newEntity inU => (newEntity w inU).1
  | .bumpMiss key => bumpMisses w key
  | .compact key => tryCompact w key

/-- Interpret a sequence of operations, oldest first. -/
def applyOps (w : World) (ops : List Op) : World := ops.foldl applyOp w

/-! ### Ground lemmas about the heap and map models -/

theorem nth_lt_length {l : List α} {n : Nat} {a : α} (h : nth l n = some a) :
    n < l.length := by
  induction l generalizing n with
  | nil => simp [nth] at h
  | cons x l ih =>
    cases n with
    | zero => simp
    | succ n => simpa using Nat.succ_lt_succ (ih h)

theorem nth_append_left {l₁ : List α} {n : Nat} (l₂ : List α) (h : n < l₁.length) :
    nth (l₁ ++ l₂) n = nth l₁ n := by
  induction l₁ generalizing n with
  | nil => simp at h
  | cons x l ih =>
    cases n with
    | zero => rfl
    | succ n => simpa [nth] using ih (by simpa using h)

theorem nth_append_length (l : List α) (x : α) : nth (l ++ [x]) l.length = some x := by
  induction l with
  | nil => rfl
  | cons a l ih => simpa [nth] using ih

theorem length_setNth (l : List α) (n : Nat) (b : α) : (setNth l n b).length = l.length := by
  induction l generalizing n with
  | nil => rfl
  | cons a l ih => cases n <;> simp [setNth, ih]

theorem nth_setNth_self {l : List α} {n : Nat} (h : n < l.length) (b : α) :
    nth (setNth l n b) n = some b := by
  induction l generalizing n with
  | nil => simp at h
  | cons a l ih =>
    cases n with
    | zero => rfl
    | succ n => simpa [setNth, nth] using ih (by simpa using h)

theorem nth_setNth_ne (l : List α) (m n : Nat) (h : m ≠ n) (b : α) :
    nth (setNth l n b) m = nth l m := by
  induction l generalizing m n with
  | nil => rfl
  | cons a l ih =>
    cases n with
    | zero => cases m with
      | zero => exact absurd rfl h
      | succ m => rfl
    | succ n => cases m with
      | zero => rfl
      | succ m => simpa [setNth, nth] using ih m n (fun hc => h (by simp [hc]))

theorem setNth_self {l : List α} {n : Nat} {a : α} (h : nth l n = some a) :
    setNth l n a = l := by
  induction l generalizing n with
  | nil => rfl
  | cons x l ih =>
    cases n with
    | zero => simp [nth] at h; simp [setNth, h]
    | succ n => simp [nth] at h; simp [setNth, ih h]

theorem lookupA_eraseA_self (l : List (String × α)) (k : String) :
    lookupA (eraseA l k) k = none := by
  induction l with
  | nil => rfl
  | cons kv l ih =>
    by_cases h : kv.1 = k
    · simpa [eraseA, h] using ih
    · simpa [eraseA, lookupA, h, Ne.symm h] using ih

theorem lookupA_eraseA_ne (l : List (String × α)) {k k' : String} (h : k' ≠ k) :
    lookupA (eraseA l k) k' = lookupA l k' := by
  induction l with
  | nil => rfl
  | cons kv l ih =>
    by_cases hk : kv.1 = k
    · have he : eraseA (kv :: l) k = eraseA l k := by simp [eraseA, hk]
      rw [he, ih]
      simp [lookupA, hk, h]
    · by_cases hk' : k' = kv.1
      · simp [eraseA, hk, lookupA, hk']
      · simpa [eraseA, hk, lookupA, hk'] using ih

theorem lookupA_append (l₁ l₂ : List (String × α)) (k : String) :
    lookupA (l₁ ++ l₂) k = ((lookupA l₁ k).rec (lookupA l₂ k) fun a => some a) := by
  induction l₁ with
  | nil => rfl
  | cons kv l ih =>
    by_cases h : k = kv.1 <;> simp [lookupA, h, ih]

theorem lookupA_insertA_self (l : List (String × α)) (k : String) (a : α) :
    lookupA (insertA l k a) k = some a := by
  rw [insertA, lookupA_append, lookupA_eraseA_self]
  simp [lookupA]

theorem lookupA_insertA_ne (l : List (String × α)) {k k' : String} (h : k' ≠ k) (a : α) :
    lookupA (insertA l k a) k' = lookupA l k' := by
  rw [insertA, lookupA_append, lookupA_eraseA_ne l h]
  cases hl : lookupA l k' with
  | none => simp [lookupA, h]
  | some b => simp

theorem mem_of_lookupA {l : List (String × α)} {k : String} {a : α}
    (h : lookupA l k = some a) : (k, a) ∈ l := by
  induction l with
  | nil => simp [lookupA] at h
  | cons kv l ih =>
    obtain ⟨k₁, a₁⟩ := kv
    by_cases hk : k = k₁
    · subst hk
      simp [lookupA] at h
      subst h
      exact List.mem_cons_self _ _
    · simp [lookupA, hk] at h
      exact List.mem_cons_of_mem _ (ih h)

theorem mem_eraseA {l : List (String × α)} {k : String} {kv : String × α}
    (h : kv ∈ eraseA l k) : kv ∈ l ∧ kv.1 ≠ k := by
  unfold eraseA at h
  have := List.mem_filter.mp h
  simpa using this

theorem mem_insertA {l : List (String × α)} {k : String} {a : α} {kv : String × α}
    (h : kv ∈ insertA l k a) : (kv ∈ l ∧ kv.1 ≠ k) ∨ kv = (k, a) := by
  unfold insertA at h
  rcases List.mem_append.mp h with h | h
  · exact .inl (mem_eraseA h)
  · simp at h
    exact .inr h

theorem nth_append_ne {l : List α} {n : Nat} (x : α) (h : n ≠ l.length) :
    nth (l ++ [x]) n = nth l n := by
  induction l generalizing n with
  | nil =>
    cases n with
    | zero => exact absurd rfl h
    | succ n => cases n <;> rfl
  | cons a l ih =>
    cases n with
    | zero => rfl
    | succ n => simpa [nth] using ih (fun hc => h (by simp [hc]))

theorem nth_append_single {l : List α} {x a : α} {n : Nat}
    (h : nth (l ++ [x]) n = some a) : nth l n = some a ∨ (n = l.length ∧ a = x) := by
  by_cases hn : n = l.length
  · subst hn
    rw [nth_append_length] at h
    exact .inr ⟨rfl, (Option.some.inj h).symm⟩
  · rw [nth_append_ne x hn] at h
    exact .inl h

/-! ### Frame lemmas: which parts of the World each primitive touches -/

theorem entAt?_setProp (w : World) (p : Nat) (st : GoProp) (e : Nat) :
    (setProp w p st).entAt? e = w.entAt? e := rfl

theorem buckets_setProp (w : World) (p : Nat) (st : GoProp) :
    (setProp w p st).buckets = w.buckets := rfl

theorem length_props_setProp (w : World) (p : Nat) (st : GoProp) :
    (setProp w p st).props.length = w.props.length := length_setNth ..

theorem propAt?_setProp_self {w : World} {p : Nat} {st₀ : GoProp}
    (h : w.propAt? p = some st₀) (st : GoProp) : (setProp w p st).propAt? p = some st :=
  nth_setNth_self (nth_lt_length h) st

theorem propAt?_setProp_ne (w : World) {q p : Nat} (h : q ≠ p) (st : GoProp) :
    (setProp w p st).propAt? q = w.propAt? q := nth_setNth_ne _ q p h st

theorem propAt?_setEnt (w : World) (e : Nat) (ent : Entity) (p : Nat) :
    (setEnt w e ent).propAt? p = w.propAt? p := rfl

theorem buckets_setEnt (w : World) (e : Nat) (ent : Entity) :
    (setEnt w e ent).buckets = w.buckets := rfl

theorem entAt?_setEnt_self {w : World} {e : Nat} {ent₀ : Entity}
    (h : w.entAt? e = some ent₀) (ent : Entity) : (setEnt w e ent).entAt? e = some ent :=
  nth_setNth_self (nth_lt_length h) ent

theorem entAt?_setEnt_ne (w : World) {e' e : Nat} (h : e' ≠ e) (ent : Entity) :
    (setEnt w e ent).entAt? e' = w.entAt? e' := nth_setNth_ne _ e' e h ent

theorem length_entities_setEnt (w : World) (e : Nat) (ent : Entity) :
    (setEnt w e ent).entities.length = w.entities.length := length_setNth ..

theorem propAt?_setData_self {w : World} {p : Nat} {st : GoProp}
    (h : w.propAt? p = some st) (d : Payload) :
    (setData w p d).propAt? p = some { st with data := d } := by
  unfold setData
  rw [h]
  exact propAt?_setProp_self h _

theorem propAt?_setData_ne (w : World) {q p : Nat} (h : q ≠ p) (d : Payload) :
    (setData w p d).propAt? q = w.propAt? q := by
  unfold setData
  cases w.propAt? p with
  | none => rfl
  | some st => exact propAt?_setProp_ne w h _

theorem entAt?_setData (w : World) (p : Nat) (d : Payload) (e : Nat) :
    (setData w p d).entAt? e = w.entAt? e := by
  unfold setData
  cases w.propAt? p <;> rfl

theorem buckets_setData (w : World) (p : Nat) (d : Payload) :
    (setData w p d).buckets = w.buckets := by
  unfold setData
  cases w.propAt? p <;> rfl

theorem length_props_setData (w : World) (p : Nat) (d : Payload) :
    (setData w p d).props.length = w.props.length := by
  unfold setData
  cases w.propAt? p with
  | none => rfl
  | some st => exact length_props_setProp ..

theorem propAt?_detatch_self {w : World} {p : Nat} {st : GoProp}
    (h : w.propAt? p = some st) :
    (detatch w p).propAt? p = some { st with attached := false, e := none } := by
  unfold detatch
  rw [h]
  exact propAt?_setProp_self h _

theorem propAt?_detatch_ne (w : World) {q p : Nat} (h : q ≠ p) :
    (detatch w p).propAt? q = w.propAt? q := by
  unfold detatch
  cases w.propAt? p with
  | none => rfl
  | some st => exact propAt?_setProp_ne w h _

theorem entAt?_detatch (w : World) (p : Nat) (e : Nat) :
    (detatch w p).entAt? e = w.entAt? e := by
  unfold detatch
  cases w.propAt? p <;> rfl

theorem entities_detatch (w : World) (p : Nat) :
    (detatch w p).entities = w.entities := by
  unfold detatch
  cases w.propAt? p <;> rfl

theorem buckets_detatch (w : World) (p : Nat) :
    (detatch w p).buckets = w.buckets := by
  unfold detatch
  cases w.propAt? p <;> rfl

theorem length_props_detatch (w : World) (p : Nat) :
    (detatch w p).props.length = w.props.length := by
  unfold detatch
  cases w.propAt? p with
  | none => rfl
  | some st => exact length_props_setProp ..

theorem props_setBucket (w : World) (key : String) (b : Bucket) :
    (setBucket w key b).props = w.props := rfl

theorem entities_setBucket (w : World) (key : String) (b : Bucket) :
    (setBucket w key b).entities = w.entities := rfl

theorem props_ensureBucket (w : World) (key : String) :
    (ensureBucket w key).props = w.props := by
  unfold ensureBucket
  cases lookupBucket w key <;> rfl

theorem entities_ensureBucket (w : World) (key : String) :
    (ensureBucket w key).entities = w.entities := by
  unfold ensureBucket
  cases lookupBucket w key <;> rfl

theorem props_appendDB (w : World) (key : String) (p : Nat) :
    (appendDB w key p).props = w.props := by
  unfold appendDB
  cases h : lookupBucket (ensureBucket w key) key <;>
    simp [h, setBucket, props_ensureBucket]

theorem entities_appendDB (w : World) (key : String) (p : Nat) :
    (appendDB w key p).entities = w.entities := by
  unfold appendDB
  cases h : lookupBucket (ensureBucket w key) key <;>
    simp [h, setBucket, entities_ensureBucket]

theorem props_bumpMisses (w : World) (key : String) :
    (bumpMisses w key).props = w.props := by
  unfold bumpMisses
  cases lookupBucket w key <;> rfl

theorem entities_bumpMisses (w : World) (key : String) :
    (bumpMisses w key).entities = w.entities := by
  unfold bumpMisses
  cases lookupBucket w key <;> rfl

theorem props_tryCompact (w : World) (key : String) :
    (tryCompact w key).props = w.props := by
  unfold tryCompact
  cases lookupBucket w key with
  | none => rfl
  | some b =>
    by_cases h : b.misses < bucketMissesBeforeCompact <;> simp [h, setBucket]

theorem entities_tryCompact (w : World) (key : String) :
    (tryCompact w key).entities = w.entities := by
  unfold tryCompact
  cases lookupBucket w key with
  | none => rfl
  | some b =>
    by_cases h : b.misses < bucketMissesBeforeCompact <;> simp [h, setBucket]

theorem entities_detachAll (w : World) (ps : List Nat) :
    (detachAll w ps).entities = w.entities := by
  induction ps generalizing w with
  | nil => rfl
  | cons q rest ih =>
    show (detachAll (detatch w q) rest).entities = _
    rw [ih, entities_detatch]

theorem buckets_detachAll (w : World) (ps : List Nat) :
    (detachAll w ps).buckets = w.buckets := by
  induction ps generalizing w with
  | nil => rfl
  | cons q rest ih =>
    show (detachAll (detatch w q) rest).buckets = _
    rw [ih, buckets_detatch]

theorem length_props_detachAll (w : World) (ps : List Nat) :
    (detachAll w ps).props.length = w.props.length := by
  induction ps generalizing w with
  | nil => rfl
  | cons q rest ih =>
    show (detachAll (detatch w q) rest).props.length = _
    rw [ih, length_props_detatch]

theorem propAt?_detachAll (w : World) (ps : List Nat) (p : Nat) :
    (detachAll w ps).propAt? p =
      (w.propAt? p).map
        (fun st => if p ∈ ps then { st with attached := false, e := none } else st) := by
  induction ps generalizing w with
  | nil => simp [detachAll]
  | cons q rest ih =>
    show (detachAll (detatch w q) rest).propAt? p = _
    rw [ih]
    by_cases hpq : p = q
    · subst hpq
      cases hst : w.propAt? p with
      | none =>
        have hd : (detatch w p).propAt? p = none := by
          unfold detatch
          rw [hst]
          exact hst
        rw [hd]
        rfl
      | some st =>
        rw [propAt?_detatch_self hst]
        by_cases hm : p ∈ rest <;> simp [hm]
    · rw [propAt?_detatch_ne w hpq]
      cases w.propAt? p <;> simp [hpq]

/-! ### The reachable-state invariant -/

/-- Structural invariant of every store reachable through the public
operations: every table entry references an allocated, attached Prop whose
key is the entry's key and whose back-pointer names the owning Entity;
every attached Prop is registered in its owner's table under its key; a
detached Prop has no back-pointer; and a deleted Entity has an empty table. -/
structure Inv (w : World) : Prop where
  tableWF : ∀ e ent kv, w.entAt? e = some ent → kv ∈ ent.props →
    ∃ st, w.propAt? kv.2 = some st ∧ st.key = kv.1 ∧ st.attached = true ∧ st.e = some e
  attWF : ∀ p st, w.propAt? p = some st → st.attached = true →
    ∃ e ent, st.e = some e ∧ w.entAt? e = some ent ∧ lookupA ent.props st.key = some p
  ownWF : ∀ p st, w.propAt? p = some st → st.attached = false → st.e = none
  delWF : ∀ e ent, w.entAt? e = some ent → ent.deleted = true → ent.props = []

/-- The empty store satisfies the invariant. -/
theorem inv_init : Inv World.init := by
  constructor
  · intro e ent kv hent _
    simp [World.init, World.entAt?, nth] at hent
  · intro p st hst _
    simp [World.init, World.propAt?, nth] at hst
  · intro p st hst _
    simp [World.init, World.propAt?, nth] at hst
  · intro e ent hent _
    simp [World.init, World.entAt?, nth] at hent

/-- The invariant only depends on the two heaps, not on the buckets. -/
theorem inv_congr {w w' : World} (hp : w'.props = w.props)
    (he : w'.entities = w.entities) (h : Inv w) : Inv w' := by
  have hpa : ∀ p, w'.propAt? p = w.propAt? p := fun p => by
    unfold World.propAt?
    rw [hp]
  have hea : ∀ e, w'.entAt? e = w.entAt? e := fun e => by
    unfold World.entAt?
    rw [he]
  constructor
  · intro e ent kv hent hmem
    obtain ⟨st, h1, h2⟩ := h.tableWF e ent kv ((hea e) ▸ hent) hmem
    exact ⟨st, (hpa kv.2).symm ▸ h1, h2⟩
  · intro p st hst hatt
    obtain ⟨e, ent, h1, h2, h3⟩ := h.attWF p st ((hpa p) ▸ hst) hatt
    exact ⟨e, ent, h1, (hea e).symm ▸ h2, h3⟩
  · intro p st hst hatt
    exact h.ownWF p st ((hpa p) ▸ hst) hatt
  · intro e ent hent hdel
    exact h.delWF e ent ((hea e) ▸ hent) hdel

/-- `lookupA` is a function: two successful lookups of the same key agree. -/
theorem lookupA_det {l : List (String × α)} {k : String} {a b : α}
    (h1 : lookupA l k = some a) (h2 : lookupA l k = some b) : a = b := by
  rw [h1] at h2
  exact Option.some.inj h2

/-- Replacing a Prop with one that has the same key, flag and back-pointer
(only the payload may differ) preserves the invariant. -/
theorem inv_setProp_same {w : World} {p : Nat} {st₀ st : GoProp} (h : Inv w)
    (hst : w.propAt? p = some st₀) (hkey : st.key = st₀.key)
    (hatt : st.attached = st₀.attached) (he : st.e = st₀.e) :
    Inv (setProp w p st) := by
  have hself := propAt?_setProp_self hst st
  constructor
  · intro e ent kv hent hmem
    rw [entAt?_setProp] at hent
    obtain ⟨st₁, h1, h2, h3, h4⟩ := h.tableWF e ent kv hent hmem
    by_cases hq : kv.2 = p
    · subst hq
      rw [hst] at h1
      cases Option.some.inj h1
      exact ⟨st, hself, hkey ▸ h2, hatt ▸ h3, he ▸ h4⟩
    · exact ⟨st₁, (propAt?_setProp_ne w hq st).symm ▸ h1, h2, h3, h4⟩
  · intro q st₁ hq hatt₁
    by_cases hqp : q = p
    · subst hqp
      rw [hself] at hq
      cases Option.some.inj hq
      obtain ⟨e, ent, h1, h2, h3⟩ := h.attWF q st₀ hst (hatt ▸ hatt₁)
      exact ⟨e, ent, he ▸ h1, h2, hkey ▸ h3⟩
    · rw [propAt?_setProp_ne w hqp] at hq
      obtain ⟨e, ent, h1, h2, h3⟩ := h.attWF q st₁ hq hatt₁
      exact ⟨e, ent, h1, h2, h3⟩
  · intro q st₁ hq hatt₁
    by_cases hqp : q = p
    · subst hqp
      rw [hself] at hq
      cases Option.some.inj hq
      exact he ▸ h.ownWF q st₀ hst (hatt ▸ hatt₁)
    · rw [propAt?_setProp_ne w hqp] at hq
      exact h.ownWF q st₁ hq hatt₁
  · intro e ent hent hdel
    rw [entAt?_setProp] at hent
    exact h.delWF e ent hent hdel

/-- `setData` (a pure payload write) preserves the invariant. -/
theorem inv_setData {w : World} (h : Inv w) (p : Nat) (d : Payload) :
    Inv (setData w p d) := by
  unfold setData
  cases hst : w.propAt? p with
  | none => exact h
  | some st => exact inv_setProp_same h hst rfl rfl rfl

/-- Under the invariant, `loadProp` on a live Entity is plain table lookup:
a stale (removed) Prop can never occupy a table slot. -/
theorem loadProp_eq_lookup {w : World} {e : Nat} {ent : Entity} (h : Inv w)
    (hent : w.entAt? e = some ent) (hdel : ent.deleted = false) (key : String) :
    loadProp w e key = lookupA ent.props key := by
  unfold loadProp
  rw [hent]
  simp only [hdel]
  cases hlk : lookupA ent.props key with
  | none => simp
  | some p =>
    obtain ⟨st, h1, h2, h3, h4⟩ := h.tableWF e ent (key, p) hent (mem_of_lookupA hlk)
    simp [removedP, h1, h3]

/-- Removing a table slot and detaching the Prop it held (the common core of
`Entity.Remove` and `Prop.Remove`) preserves the invariant. -/
theorem inv_removeSlot {w : World} {e : Nat} {ent : Entity} {key : String} {p : Nat}
    (h : Inv w) (hent : w.entAt? e = some ent) (hlk : lookupA ent.props key = some p) :
    Inv (detatch (setEnt w e { ent with props := eraseA ent.props key }) p) := by
  obtain ⟨stp, hstp, hkeyp, hattp, hep⟩ :=
    h.tableWF e ent (key, p) hent (mem_of_lookupA hlk)
  set ent' : Entity := { ent with props := eraseA ent.props key } with hent'
  set w₁ := setEnt w e ent' with hw₁
  have hstp₁ : w₁.propAt? p = some stp := hstp
  have hself : (detatch w₁ p).propAt? p = some { stp with attached := false, e := none } :=
    propAt?_detatch_self hstp₁
  have hne : ∀ q, q ≠ p → (detatch w₁ p).propAt? q = w.propAt? q := fun q hq => by
    rw [propAt?_detatch_ne w₁ hq]
    rfl
  have hentd : ∀ e', (detatch w₁ p).entAt? e' = w₁.entAt? e' := fun e' =>
    entAt?_detatch w₁ p e'
  have hentE : w₁.entAt? e = some ent' := entAt?_setEnt_self hent ent'
  have hentNe : ∀ e', e' ≠ e → w₁.entAt? e' = w.entAt? e' := fun e' he' =>
    entAt?_setEnt_ne w he' ent'
  constructor
  · intro e₂ ent₂ kv hent₂ hmem
    rw [hentd] at hent₂
    by_cases he₂ : e₂ = e
    · subst he₂
      rw [hentE] at hent₂
      cases Option.some.inj hent₂
      obtain ⟨hmem₀, hkv⟩ := mem_eraseA hmem
      obtain ⟨st, h1, h2, h3, h4⟩ := h.tableWF e₂ ent kv hent hmem₀
      have hqp : kv.2 ≠ p := by
        intro hc
        rw [hc, hstp] at h1
        cases Option.some.inj h1
        exact hkv (h2 ▸ hkeyp)
      exact ⟨st, (hne kv.2 hqp).symm ▸ h1, h2, h3, h4⟩
    · rw [hentNe e₂ he₂] at hent₂
      obtain ⟨st, h1, h2, h3, h4⟩ := h.tableWF e₂ ent₂ kv hent₂ hmem
      have hqp : kv.2 ≠ p := by
        intro hc
        rw [hc, hstp] at h1
        cases Option.some.inj h1
        exact he₂ (Option.some.inj (h4 ▸ hep))
      exact ⟨st, (hne kv.2 hqp).symm ▸ h1, h2, h3, h4⟩
  · intro q st' hq hatt'
    by_cases hqp : q = p
    · subst hqp
      rw [hself] at hq
      cases Option.some.inj hq
      simp at hatt'
    · rw [hne q hqp] at hq
      obtain ⟨e₀, ent₀, h1, h2, h3⟩ := h.attWF q st' hq hatt'
      by_cases he₀ : e₀ = e
      · subst he₀
        rw [hent] at h2
        cases Option.some.inj h2
        refine ⟨e₀, ent', h1, (hentd e₀).symm ▸ hentE, ?_⟩
        have hkne : st'.key ≠ key := by
          intro hc
          exact hqp (lookupA_det (hc ▸ h3) hlk)
        rw [hent']
        simpa using (lookupA_eraseA_ne ent.props hkne).symm ▸ h3
      · refine ⟨e₀, ent₀, h1, ?_, h3⟩
        rw [hentd, hentNe e₀ he₀]
        exact h2
  · intro q st' hq hatt'
    by_cases hqp : q = p
    · subst hqp
      rw [hself] at hq
      cases Option.some.inj hq
      rfl
    · rw [hne q hqp] at hq
      exact h.ownWF q st' hq hatt'
  · intro e₂ ent₂ hent₂ hdel₂
    rw [hentd] at hent₂
    by_cases he₂ : e₂ = e
    · subst he₂
      rw [hentE] at hent₂
      cases Option.some.inj hent₂
      have := h.delWF e₂ ent hent hdel₂
      rw [this] at hlk
      cases hlk
    · rw [hentNe e₂ he₂] at hent₂
      exact h.delWF e₂ ent₂ hent₂ hdel₂

/-- `Entity.Remove` preserves the invariant. -/
theorem inv_remove {w : World} (h : Inv w) (e : Nat) (key : String) :
    Inv (remove w e key).1 := by
  unfold remove
  cases hent : w.entAt? e with
  | none => exact h
  | some ent =>
    cases hd : ent.deleted with
    | true => simpa [hd] using h
    | false =>
      cases hlk : lookupA ent.props key with
      | none => simpa [hd, hlk] using h
      | some p =>
        simpa [hd, hlk] using inv_removeSlot h hent hlk

/-- `Prop.Remove` preserves the invariant. -/
theorem inv_propRemove {w : World} (h : Inv w) (p? : Option Nat) :
    Inv (propRemove w p?) := by
  cases p? with
  | none => exact h
  | some p =>
    cases hst : w.propAt? p with
    | none => simpa [propRemove, hst] using h
    | some st =>
      cases hse : st.e with
      | none =>
        have hatt : st.attached = false := by
          cases hatt : st.attached with
          | false => rfl
          | true =>
            obtain ⟨e₀, _, h1, _, _⟩ := h.attWF p st hst hatt
            rw [hse] at h1
            cases h1
        have hres : propRemove w (some p) = detatch w p := by
          simp [propRemove, hst, hse]
        rw [hres]
        unfold detatch
        rw [hst]
        exact inv_setProp_same h hst rfl hatt.symm hse.symm
      | some e =>
        have hatt : st.attached = true := by
          cases hatt : st.attached with
          | true => rfl
          | false =>
            have hc := h.ownWF p st hst hatt
            rw [hse] at hc
            cases hc
        obtain ⟨e₀, ent₀, h1, h2, h3⟩ := h.attWF p st hst hatt
        rw [hse] at h1
        have he₀ : e₀ = e := (Option.some.inj h1).symm
        subst he₀
        cases hent : w.entAt? e₀ with
        | none => rw [hent] at h2; cases h2
        | some ent =>
          have hee : ent₀ = ent := by
            rw [hent] at h2
            exact (Option.some.inj h2).symm
          rw [hee] at h3
          have hres : propRemove w (some p) =
              detatch (setEnt w e₀ { ent with props := eraseA ent.props st.key }) p := by
            simp [propRemove, hst, hse, hent]
          rw [hres]
          exact inv_removeSlot h hent h3

/-- `Entity.Delete` preserves the invariant. -/
theorem inv_delete {w : World} (h : Inv w) (e? : Option Nat) :
    Inv (delete w e?) := by
  cases e? with
  | none => exact h
  | some e =>
    cases hent : w.entAt? e with
    | none => simpa [delete, hent] using h
    | some ent =>
      have hres : delete w (some e) =
          setEnt (detachAll w (ent.props.map Prod.snd)) e ⟨false, [], true⟩ := by
        simp [delete, hent]
      rw [hres]
      set ps := ent.props.map Prod.snd with hps
      set w₁ := detachAll w ps with hw₁
      have hpa : ∀ q, w₁.propAt? q =
          (w.propAt? q).map
            (fun st => if q ∈ ps then { st with attached := false, e := none } else st) :=
        fun q => propAt?_detachAll w ps q
      have hea : ∀ e', w₁.entAt? e' = w.entAt? e' := fun e' => by
        unfold World.entAt?
        rw [hw₁, entities_detachAll]
      have hentE : (setEnt w₁ e ⟨false, [], true⟩).entAt? e = some ⟨false, [], true⟩ :=
        entAt?_setEnt_self ((hea e).symm ▸ hent) _
      have hentNe : ∀ e', e' ≠ e → (setEnt w₁ e ⟨false, [], true⟩).entAt? e' = w.entAt? e' :=
        fun e' he' => by rw [entAt?_setEnt_ne w₁ he', hea]
      have hppa : ∀ q, (setEnt w₁ e ⟨false, [], true⟩).propAt? q = w₁.propAt? q :=
        fun q => propAt?_setEnt w₁ e _ q
      constructor
      · intro e₂ ent₂ kv hent₂ hmem
        by_cases he₂ : e₂ = e
        · subst he₂
          rw [hentE] at hent₂
          cases Option.some.inj hent₂
          cases hmem
        · rw [hentNe e₂ he₂] at hent₂
          obtain ⟨st, h1, h2, h3, h4⟩ := h.tableWF e₂ ent₂ kv hent₂ hmem
          have hnotin : kv.2 ∉ ps := by
            intro hin
            rw [hps] at hin
            obtain ⟨kv₀, hkv₀, hkv₀2⟩ := List.mem_map.mp hin
            obtain ⟨st₀, g1, g2, g3, g4⟩ := h.tableWF e ent kv₀ hent hkv₀
            rw [hkv₀2, h1] at g1
            cases Option.some.inj g1
            rw [h4] at g4
            exact he₂ (Option.some.inj g4)
          refine ⟨st, ?_, h2, h3, h4⟩
          rw [hppa, hpa, h1]
          simp [hnotin]
      · intro q stq hq hattq
        rw [hppa, hpa] at hq
        cases hwq : w.propAt? q with
        | none => rw [hwq] at hq; cases hq
        | some st₀ =>
          rw [hwq] at hq
          simp only [Option.map] at hq
          by_cases hin : q ∈ ps
          · rw [if_pos hin] at hq
            cases Option.some.inj hq
            simp at hattq
          · rw [if_neg hin] at hq
            cases Option.some.inj hq
            obtain ⟨e₀, ent₀, h1, h2, h3⟩ := h.attWF q stq hwq hattq
            by_cases he₀ : e₀ = e
            · subst he₀
              rw [hent] at h2
              cases Option.some.inj h2
              refine absurd ?_ hin
              rw [hps]
              exact List.mem_map.mpr ⟨(stq.key, q), mem_of_lookupA h3, rfl⟩
            · exact ⟨e₀, ent₀, h1, (hentNe e₀ he₀).symm ▸ h2, h3⟩
      · intro q stq hq hattq
        rw [hppa, hpa] at hq
        cases hwq : w.propAt? q with
        | none => rw [hwq] at hq; cases hq
        | some st₀ =>
          rw [hwq] at hq
          simp only [Option.map] at hq
          by_cases hin : q ∈ ps
          · rw [if_pos hin] at hq
            cases Option.some.inj hq
            rfl
          · rw [if_neg hin] at hq
            cases Option.some.inj hq
            exact h.ownWF q stq hwq hattq
      · intro e₂ ent₂ hent₂ hdel₂
        by_cases he₂ : e₂ = e
        · subst he₂
          rw [hentE] at hent₂
          cases Option.some.inj hent₂
          rfl
        · rw [hentNe e₂ he₂] at hent₂
          exact h.delWF e₂ ent₂ hent₂ hdel₂

/-- Allocating a fresh Entity preserves the invariant. -/
theorem inv_newEntity {w : World} (h : Inv w) (inU : Bool) :
    Inv (newEntity w inU).1 := by
  unfold newEntity
  constructor
  · intro e₂ ent₂ kv hent₂ hmem
    rcases nth_append_single hent₂ with hold | ⟨_, hx⟩
    · obtain ⟨st, h1, h2, h3, h4⟩ := h.tableWF e₂ ent₂ kv hold hmem
      exact ⟨st, h1, h2, h3, h4⟩
    · subst hx
      cases hmem
  · intro q st' hq hatt'
    obtain ⟨e₀, ent₀, h1, h2, h3⟩ := h.attWF q st' hq hatt'
    refine ⟨e₀, ent₀, h1, ?_, h3⟩
    show nth (w.entities ++ _) e₀ = some ent₀
    rw [nth_append_left _ (nth_lt_length h2)]
    exact h2
  · intro q st' hq hatt'
    exact h.ownWF q st' hq hatt'
  · intro e₂ ent₂ hent₂ hdel₂
    rcases nth_append_single hent₂ with hold | ⟨_, hx⟩
    · exact h.delWF e₂ ent₂ hold hdel₂
    · subst hx
      cases hdel₂

/-- The fresh-allocation tail of `Entity.Put` preserves the invariant, given
that no table entry (live or stale) occupies the slot. -/
theorem inv_finishPut {w : World} {e : Nat} {ent : Entity} {key : String} (h : Inv w)
    (hent : w.entAt? e = some ent) (hdel : ent.deleted = false)
    (hlk : lookupA ent.props key = none) (data : List Val) :
    Inv (finishPut { w with props := w.props ++ [⟨some e, key, true, .nil⟩] }
          ent e key w.props.length data).1 := by
  set newP : GoProp := ⟨some e, key, true, .nil⟩ with hnewP
  set pid := w.props.length with hpid
  set w₁ : World := { w with props := w.props ++ [newP] } with hww₁
  set ent' : Entity := { ent with props := insertA ent.props key pid } with hent'
  set w₂ := setEnt w₁ e ent' with hww₂
  have hpa₁ : ∀ q, q ≠ pid → w₁.propAt? q = w.propAt? q := fun q hq =>
    nth_append_ne newP hq
  have hpid₁ : w₁.propAt? pid = some newP := nth_append_length w.props newP
  have hent₁ : ∀ e', w₁.entAt? e' = w.entAt? e' := fun e' => rfl
  have hentE : w₂.entAt? e = some ent' := entAt?_setEnt_self ((hent₁ e).symm ▸ hent) ent'
  have hentNe : ∀ e', e' ≠ e → w₂.entAt? e' = w.entAt? e' := fun e' he' =>
    (entAt?_setEnt_ne w₁ he' ent').trans (hent₁ e')
  have hpa₂ : ∀ q, w₂.propAt? q = w₁.propAt? q := fun q => propAt?_setEnt w₁ e ent' q
  have hinv₂ : Inv w₂ := by
    constructor
    · intro e₂ ent₂ kv hent₂ hmem
      by_cases he₂ : e₂ = e
      · subst he₂
        rw [hentE] at hent₂
        cases Option.some.inj hent₂
        rcases mem_insertA hmem with ⟨hmem₀, hkv⟩ | hkv
        · obtain ⟨st, h1, h2, h3, h4⟩ := h.tableWF e₂ ent kv hent hmem₀
          have hq : kv.2 ≠ pid := fun hc => by
            rw [hpid] at hc
            exact absurd (hc ▸ nth_lt_length h1) (lt_irrefl _)
          exact ⟨st, (hpa₂ kv.2).symm ▸ (hpa₁ kv.2 hq).symm ▸ h1, h2, h3, h4⟩
        · subst hkv
          exact ⟨newP, (hpa₂ pid).symm ▸ hpid₁, rfl, rfl, rfl⟩
      · rw [hentNe e₂ he₂] at hent₂
        obtain ⟨st, h1, h2, h3, h4⟩ := h.tableWF e₂ ent₂ kv hent₂ hmem
        have hq : kv.2 ≠ pid := fun hc => by
          rw [hpid] at hc
          exact absurd (hc ▸ nth_lt_length h1) (lt_irrefl _)
        exact ⟨st, (hpa₂ kv.2).symm ▸ (hpa₁ kv.2 hq).symm ▸ h1, h2, h3, h4⟩
    · intro q st' hq hatt'
      rw [hpa₂] at hq
      by_cases hqp : q = pid
      · subst hqp
        rw [hpid₁] at hq
        cases Option.some.inj hq
        refine ⟨e, ent', rfl, hentE, ?_⟩
        show lookupA (insertA ent.props key pid) key = some pid
        exact lookupA_insertA_self ent.props key pid
      · rw [hpa₁ q hqp] at hq
        obtain ⟨e₀, ent₀, h1, h2, h3⟩ := h.attWF q st' hq hatt'
        by_cases he₀ : e₀ = e
        · subst he₀
          rw [hent] at h2
          cases Option.some.inj h2
          refine ⟨e₀, ent', h1, hentE, ?_⟩
          have hkne : st'.key ≠ key := by
            intro hc
            rw [hc, hlk] at h3
            cases h3
          show lookupA (insertA ent.props key pid) st'.key = some q
          rw [lookupA_insertA_ne ent.props hkne]
          exact h3
        · exact ⟨e₀, ent₀, h1, (hentNe e₀ he₀).symm ▸ h2, h3⟩
    · intro q st' hq hatt'
      rw [hpa₂] at hq
      by_cases hqp : q = pid
      · subst hqp
        rw [hpid₁] at hq
        cases Option.some.inj hq
        cases hatt'
      · rw [hpa₁ q hqp] at hq
        exact h.ownWF q st' hq hatt'
    · intro e₂ ent₂ hent₂ hdel₂
      by_cases he₂ : e₂ = e
      · subst he₂
        rw [hentE] at hent₂
        cases Option.some.inj hent₂
        rw [hent'] at hdel₂
        simp [hdel] at hdel₂
      · rw [hentNe e₂ he₂] at hent₂
        exact h.delWF e₂ ent₂ hent₂ hdel₂
  unfold finishPut
  have hw₃ : Inv (if ent.u then appendDB w₂ key pid else w₂) := by
    cases ent.u with
    | false => simpa using hinv₂
    | true =>
      refine inv_congr ?_ ?_ hinv₂ <;> simp [props_appendDB, entities_appendDB]
  exact inv_setData hw₃ pid (putData data)

/-- `Entity.Put` preserves the invariant. -/
theorem inv_put {w : World} (h : Inv w) (e : Nat) (key : String) (data : List Val) :
    Inv (put w e key data).1 := by
  cases hent : w.entAt? e with
  | none => simpa [put, hent] using h
  | some ent =>
    cases hd : ent.deleted with
    | true => simpa [put, hent, hd] using h
    | false =>
      cases hlp : loadProp w e key with
      | some p =>
        have hres : (put w e key data).1 = setData w p (putData data) := by
          simp [put, hent, hd, hlp]
        rw [hres]
        exact inv_setData h p (putData data)
      | none =>
        have hlk : lookupA ent.props key = none := by
          rw [← loadProp_eq_lookup h hent hd key]
          exact hlp
        have hres : (put w e key data).1 =
            (finishPut { w with props := w.props ++ [⟨some e, key, true, .nil⟩] }
              ent e key w.props.length data).1 := by
          simp [put, hent, hd, hlp, hlk]
        rw [hres]
        exact inv_finishPut h hent hd hlk data

/-- The miss-counter bump only touches a bucket, so it preserves the
invariant. -/
theorem inv_bumpMisses {w : World} (h : Inv w) (key : String) :
    Inv (bumpMisses w key) :=
  inv_congr (props_bumpMisses w key) (entities_bumpMisses w key) h

/-- Compaction only touches a bucket, so it preserves the invariant. -/
theorem inv_tryCompact {w : World} (h : Inv w) (key : String) :
    Inv (tryCompact w key) :=
  inv_congr (props_tryCompact w key) (entities_tryCompact w key) h

/-- Every single public operation preserves the invariant. -/
theorem inv_applyOp {w : World} (h : Inv w) (op : Op) : Inv (applyOp w op) := by
  cases op with
  | put e key data => exact inv_put h e key data
  | remove e key => exact inv_remove h e key
  | propRemove p => exact inv_propRemove h (some p)
  | delete e => exact inv_delete h (some e)
  | newEntity inU => exact inv_newEntity h inU
  | bumpMiss key => exact inv_bumpMisses h key
  | compact key => exact inv_tryCompact h key

/-- Every sequence of public operations preserves the invariant. -/
theorem inv_applyOps {w : World} (h : Inv w) (ops : List Op) :
    Inv (applyOps w ops) := by
  induction ops generalizing w with
  | nil => exact h
  | cons op rest ih => exact ih (inv_applyOp h op)

/-- A sweep whose callback preserves the invariant preserves the
invariant. -/
theorem inv_rangeProps {key : String} {fn : World → Nat → World × Bool}
    (hfn : ∀ w p, Inv w → Inv (fn w p).1) {w : World} (h : Inv w) (ps : List Nat) :
    Inv (rangeProps key fn w ps).1 := by
  induction ps generalizing w with
  | nil => exact h
  | cons p rest ih =>
    cases hrem : removedP w (some p) with
    | true =>
      have hres : (rangeProps key fn w (p :: rest)).1 =
          (rangeProps key fn (bumpMisses w key) rest).1 := by
        simp [rangeProps, hrem]
      rw [hres]
      exact ih (inv_bumpMisses h key)
    | false =>
      have hw₁ : Inv (fn w p).1 := hfn w p h
      cases hfnp : fn w p with
      | mk w₁ cont =>
        rw [hfnp] at hw₁
        cases cont with
        | true =>
          have hres : (rangeProps key fn w (p :: rest)).1 =
              (rangeProps key fn w₁ rest).1 := by
            simp [rangeProps, hrem, hfnp]
          rw [hres]
          exact ih hw₁
        | false =>
          have hres : (rangeProps key fn w (p :: rest)).1 = w₁ := by
            simp [rangeProps, hrem, hfnp]
          rw [hres]
          exact hw₁

/-- A `Range` call whose callback preserves the invariant preserves the
invariant. -/
theorem inv_range {key : String} {fn : World → Nat → World × Bool}
    (hfn : ∀ w p, Inv w → Inv (fn w p).1) {w : World} (h : Inv w) :
    Inv (range w key fn).1 := by
  cases hb : lookupBucket w key with
  | none => simpa [range, hb] using h
  | some b =>
    have hres : (range w key fn).1 = tryCompact (rangeProps key fn w b.data).1 key := by
      simp [range, hb]
    rw [hres]
    exact inv_tryCompact (inv_rangeProps hfn h b.data) key

/-! ### Characterizations of the public operations -/

/-- A successful `Get` means: the Entity exists, is not deleted, its table
maps the key to the returned Prop, and that Prop is not removed. -/
theorem get_some_elim {w : World} {e : Nat} {k : String} {p : Nat}
    (hget : get w e k = some p) :
    ∃ ent, w.entAt? e = some ent ∧ ent.deleted = false ∧
      lookupA ent.props k = some p ∧ removedP w (some p) = false := by
  cases hent : w.entAt? e with
  | none => simp [get, loadProp, hent] at hget
  | some ent =>
    cases hd : ent.deleted with
    | true => simp [get, loadProp, hent, hd] at hget
    | false =>
      cases hlk : lookupA ent.props k with
      | none => simp [get, loadProp, hent, hd, hlk] at hget
      | some q =>
        cases hrem : removedP w (some q) with
        | true => simp [get, loadProp, hent, hd, hlk, hrem] at hget
        | false =>
          have hqp : q = p := by simpa [get, loadProp, hent, hd, hlk, hrem] using hget
          subst hqp
          exact ⟨ent, rfl, hd, hlk, hrem⟩

/-- A non-removed Prop reference points at an allocated, attached Prop. -/
theorem get_some_propAt {w : World} {p : Nat}
    (hrem : removedP w (some p) = false) :
    ∃ st, w.propAt? p = some st ∧ st.attached = true := by
  cases hst : w.propAt? p with
  | none => simp [removedP, hst] at hrem
  | some st =>
    have hatt : st.attached = true := by simpa [removedP, hst] using hrem
    exact ⟨st, rfl, hatt⟩

/-- Introduction form for a successful `loadProp`. -/
theorem loadProp_intro {w : World} {e : Nat} {ent : Entity} {k : String} {p : Nat}
    {st : GoProp} (hent : w.entAt? e = some ent) (hdel : ent.deleted = false)
    (hlk : lookupA ent.props k = some p) (hst : w.propAt? p = some st)
    (hatt : st.attached = true) : loadProp w e k = some p := by
  simp [loadProp, hent, hdel, hlk, removedP, hst, hatt]

/-- When a live entry exists, `Put` returns exactly it and only overwrites
its payload (entity.go's early-return branch plus the deferred PutData). -/
theorem put_of_get_some {w : World} {e : Nat} {n : String} {p : Nat}
    (hget : get w e n = some p) (d : List Val) :
    put w e n d = (setData w p (putData d), some p) := by
  obtain ⟨ent, hent, hd, hlk, hrem⟩ := get_some_elim hget
  have hlp : loadProp w e n = some p := hget
  simp [put, hent, hd, hlp]

/-- The fresh-allocation tail of `Put` stores the new Prop under the key with
the collapsed payload, and `Get` finds it afterwards. -/
theorem finishPut_spec {w : World} {e : Nat} {ent : Entity} {n : String}
    (hent : w.entAt? e = some ent) (hdel : ent.deleted = false) (d : List Val) :
    ∃ p, (finishPut { w with props := w.props ++ [⟨some e, n, true, .nil⟩] }
            ent e n w.props.length d).2 = some p ∧
      get (finishPut { w with props := w.props ++ [⟨some e, n, true, .nil⟩] }
            ent e n w.props.length d).1 e n = some p ∧
      dataP (finishPut { w with props := w.props ++ [⟨some e, n, true, .nil⟩] }
            ent e n w.props.length d).1 (some p) = putData d := by
  set newP : GoProp := ⟨some e, n, true, .nil⟩ with hnewP
  set pid := w.props.length with hpid
  set w₁ : World := { w with props := w.props ++ [newP] } with hww₁
  set ent' : Entity := { ent with props := insertA ent.props n pid } with hent2
  set w₂ := setEnt w₁ e ent' with hww₂
  set w₃ := if ent.u then appendDB w₂ n pid else w₂ with hww₃
  have hprops₃ : w₃.props = w₂.props := by
    rw [hww₃]
    cases ent.u <;> simp [props_appendDB]
  have hents₃ : w₃.entities = w₂.entities := by
    rw [hww₃]
    cases ent.u <;> simp [entities_appendDB]
  have hpid₃ : w₃.propAt? pid = some newP := by
    show nth w₃.props pid = some newP
    rw [hprops₃]
    exact nth_append_length w.props newP
  have hfin : finishPut w₁ ent e n pid d = (setData w₃ pid (putData d), some pid) := by
    rw [finishPut]
  rw [hfin]
  have hpfinal : (setData w₃ pid (putData d)).propAt? pid =
      some ⟨some e, n, true, putData d⟩ := propAt?_setData_self hpid₃ (putData d)
  have hentE : (setData w₃ pid (putData d)).entAt? e = some ent' := by
    rw [entAt?_setData]
    show nth w₃.entities e = some ent'
    rw [hents₃]
    exact entAt?_setEnt_self ((rfl : w₁.entAt? e = w.entAt? e) ▸ hent) ent'
  have hdelE : ent'.deleted = false := by
    rw [hent2]
    exact hdel
  have hlkE : lookupA ent'.props n = some pid := by
    rw [hent2]
    exact lookupA_insertA_self ent.props n pid
  refine ⟨pid, rfl, ?_, ?_⟩
  · exact loadProp_intro hentE hdelE hlkE hpfinal rfl
  · simp [dataP, hpfinal]

/-- On a live Entity, `Put` always yields an entry whose payload is the
collapsed data and which `Get` returns afterwards. -/
theorem put_spec {w : World} {e : Nat} {ent : Entity} (n : String) (d : List Val)
    (hent : w.entAt? e = some ent) (hdel : ent.deleted = false) :
    ∃ p, (put w e n d).2 = some p ∧ get (put w e n d).1 e n = some p ∧
      dataP (put w e n d).1 (some p) = putData d := by
  cases hlp : loadProp w e n with
  | some p =>
    have hres : put w e n d = (setData w p (putData d), some p) :=
      put_of_get_some hlp d
    rw [hres]
    obtain ⟨ent₀, hent₀, hd₀, hlk₀, hrem₀⟩ := get_some_elim hlp
    have hee : ent₀ = ent := by
      rw [hent] at hent₀
      exact (Option.some.inj hent₀).symm
    obtain ⟨st, hst, hatt⟩ := get_some_propAt hrem₀
    refine ⟨p, rfl, ?_, ?_⟩
    · refine @loadProp_intro _ _ _ _ _ { st with data := putData d }
        (hent ▸ entAt?_setData w p (putData d) e) hdel ?_
        (propAt?_setData_self hst (putData d)) hatt
      rw [← hee]
      exact hlk₀
    · simp [dataP, propAt?_setData_self hst]
  | none =>
    set w₁ : World := { w with props := w.props ++ [⟨some e, n, true, .nil⟩] } with hww₁
    cases hlk : lookupA ent.props n with
    | some q =>
      cases hrem : removedP w₁ (some q) with
      | false =>
        have hres : put w e n d = (setData w₁ q (putData d), some q) := by
          simp [put, hent, hdel, hlp, hlk, hrem]
        rw [hres]
        obtain ⟨st, hst, hatt⟩ := get_some_propAt hrem
        refine ⟨q, rfl, ?_, ?_⟩
        · exact @loadProp_intro _ _ _ _ _ { st with data := putData d }
            (hent ▸ entAt?_setData w₁ q (putData d) e) hdel hlk
            (propAt?_setData_self hst (putData d)) hatt
        · simp [dataP, propAt?_setData_self hst]
      | true =>
        have hres : put w e n d = finishPut w₁ ent e n w.props.length d := by
          simp [put, hent, hdel, hlp, hlk, hrem]
        rw [hres]
        exact finishPut_spec hent hdel d
    | none =>
      have hres : put w e n d = finishPut w₁ ent e n w.props.length d := by
        simp [put, hent, hdel, hlp, hlk]
      rw [hres]
      exact finishPut_spec hent hdel d

theorem entities_setData (w : World) (p : Nat) (d : Payload) :
    (setData w p d).entities = w.entities := by
  unfold setData
  cases w.propAt? p <;> rfl

/-- `removedP` only depends on the Prop heap. -/
theorem removedP_congr {w w' : World} (h : w'.props = w.props) (x : Option Nat) :
    removedP w' x = removedP w x := by
  cases x with
  | none => rfl
  | some p =>
    unfold removedP World.propAt?
    rw [h]

/-- Payload writes do not change any removed flag. -/
theorem removedP_setData (w : World) (p : Nat) (d : Payload) (x : Option Nat) :
    removedP (setData w p d) x = removedP w x := by
  cases x with
  | none => rfl
  | some q =>
    by_cases hqp : q = p
    · subst hqp
      cases hst : w.propAt? q with
      | none =>
        unfold setData
        rw [hst]
      | some st => simp [removedP, propAt?_setData_self hst, hst]
    · simp [removedP, propAt?_setData_ne w hqp d]

/-- Unfolding equation of `removedP` at a non-nil reference. -/
theorem removedP_some (w : World) (p : Nat) :
    removedP w (some p) =
      (match w.propAt? p with
       | some st => !st.attached
       | none => true) := rfl

/-- Extending the Prop heap does not change existing removed flags. -/
theorem removedP_heapAppend {w : World} {p : Nat} (x : GoProp)
    (h : p ≠ w.props.length) :
    removedP { w with props := w.props ++ [x] } (some p) = removedP w (some p) := by
  rw [removedP_some, removedP_some,
    show ({ w with props := w.props ++ [x] } : World).propAt? p = w.propAt? p from
      nth_append_ne x h]

/-- A removed flag that is set stays set across a detach. -/
theorem removedP_true_detatch {w : World} {x : Option Nat} (q : Nat)
    (h : removedP w x = true) : removedP (detatch w q) x = true := by
  cases x with
  | none => rfl
  | some p =>
    by_cases hpq : p = q
    · subst hpq
      cases hst : w.propAt? p with
      | none =>
        unfold detatch
        rw [hst]
        exact h
      | some st => simp [removedP, propAt?_detatch_self hst]
    · rw [show removedP (detatch w q) (some p) = removedP w (some p) from by
        rw [removedP_some, removedP_some, propAt?_detatch_ne w hpq]]
      exact h

/-- A removed flag that is set stays set across `Entity.Delete`'s detach
loop. -/
theorem removedP_true_detachAll {w : World} {x : Option Nat} (ps : List Nat)
    (h : removedP w x = true) : removedP (detachAll w ps) x = true := by
  induction ps generalizing w with
  | nil => exact h
  | cons q rest ih =>
    show removedP (detachAll (detatch w q) rest) x = true
    exact ih (removedP_true_detatch q h)

/-- The four possible results of `Entity.Put`: unchanged store (nil/deleted
receiver), payload overwrite of the live entry, payload overwrite of a found
live occupant after the fresh allocation (dead code sequentially), or the
fresh-allocation tail. -/
theorem put_shape (w : World) (e : Nat) (n : String) (d : List Val) :
    (put w e n d).1 = w ∨
    (∃ p, loadProp w e n = some p ∧ (put w e n d).1 = setData w p (putData d)) ∨
    (∃ ent q, w.entAt? e = some ent ∧ ent.deleted = false ∧ loadProp w e n = none ∧
      lookupA ent.props n = some q ∧ (put w e n d).1 =
      setData { w with props := w.props ++ [⟨some e, n, true, .nil⟩] } q (putData d)) ∨
    (∃ ent, w.entAt? e = some ent ∧ ent.deleted = false ∧ loadProp w e n = none ∧
      (put w e n d).1 = (finishPut { w with props := w.props ++ [⟨some e, n, true, .nil⟩] }
        ent e n w.props.length d).1) := by
  cases hent : w.entAt? e with
  | none =>
    left
    simp [put, hent]
  | some ent =>
    cases hd : ent.deleted with
    | true =>
      left
      simp [put, hent, hd]
    | false =>
      cases hlp : loadProp w e n with
      | some p =>
        right; left
        exact ⟨p, rfl, by simp [put, hent, hd, hlp]⟩
      | none =>
        cases hlk : lookupA ent.props n with
        | some q =>
          cases hrem : removedP { w with props := w.props ++ [⟨some e, n, true, .nil⟩] } (some q) with
          | false =>
            right; right; left
            exact ⟨ent, q, rfl, hd, rfl, hlk, by simp [put, hent, hd, hlp, hlk, hrem]⟩
          | true =>
            right; right; right
            exact ⟨ent, rfl, hd, rfl, by simp [put, hent, hd, hlp, hlk, hrem]⟩
        | none =>
          right; right; right
          exact ⟨ent, rfl, hd, rfl, by simp [put, hent, hd, hlp, hlk]⟩

/-- `finishPut` does not change any removed flag of the store it runs in. -/
theorem removedP_finishPut (w₁ : World) (ent : Entity) (e : Nat) (n : String)
    (pid : Nat) (d : List Val) (x : Option Nat) :
    removedP (finishPut w₁ ent e n pid d).1 x = removedP w₁ x := by
  unfold finishPut
  rw [removedP_setData]
  cases hu : ent.u with
  | false => exact removedP_congr rfl x
  | true =>
    simp only [if_pos rfl]
    exact (removedP_congr (props_appendDB _ n pid) x).trans (removedP_congr rfl x)

/-- `Entity.Put` does not change the removed flag of any existing Prop. -/
theorem removedP_put {w : World} {p : Nat} (e : Nat) (n : String) (d : List Val)
    (hlt : p < w.props.length) :
    removedP (put w e n d).1 (some p) = removedP w (some p) := by
  have hne : p ≠ w.props.length := Nat.ne_of_lt hlt
  rcases put_shape w e n d with hw | ⟨q, _, hw⟩ | ⟨ent, q, _, _, _, _, hw⟩ | ⟨ent, _, _, _, hw⟩ <;>
    rw [hw]
  · exact removedP_setData w q (putData d) (some p)
  · rw [removedP_setData]
    exact removedP_heapAppend _ hne
  · rw [removedP_finishPut]
    exact removedP_heapAppend _ hne

/-- `Entity.Remove` never clears a removed flag. -/
theorem removedP_true_remove {w : World} {x : Option Nat} (e : Nat) (key : String)
    (h : removedP w x = true) : removedP (remove w e key).1 x = true := by
  cases hent : w.entAt? e with
  | none => simpa [remove, hent] using h
  | some ent =>
    cases hd : ent.deleted with
    | true => simpa [remove, hent, hd] using h
    | false =>
      cases hlk : lookupA ent.props key with
      | none => simpa [remove, hent, hd, hlk] using h
      | some p =>
        have hres : (remove w e key).1 =
            detatch (setEnt w e { ent with props := eraseA ent.props key }) p := by
          simp [remove, hent, hd, hlk]
        rw [hres]
        refine removedP_true_detatch p ?_
        rw [removedP_congr (rfl : (setEnt w e _).props = w.props) x]
        exact h

/-- `Prop.Remove` never clears a removed flag. -/
theorem removedP_true_propRemove {w : World} {x : Option Nat} (p? : Option Nat)
    (h : removedP w x = true) : removedP (propRemove w p?) x = true := by
  cases p? with
  | none => exact h
  | some p =>
    cases hst : w.propAt? p with
    | none => simpa [propRemove, hst] using h
    | some st =>
      cases hse : st.e with
      | none =>
        have hres : propRemove w (some p) = detatch w p := by
          simp [propRemove, hst, hse]
        rw [hres]
        exact removedP_true_detatch p h
      | some e =>
        cases hent : w.entAt? e with
        | none =>
          have hres : propRemove w (some p) = detatch w p := by
            simp [propRemove, hst, hse, hent]
          rw [hres]
          exact removedP_true_detatch p h
        | some ent =>
          have hres : propRemove w (some p) =
              detatch (setEnt w e { ent with props := eraseA ent.props st.key }) p := by
            simp [propRemove, hst, hse, hent]
          rw [hres]
          refine removedP_true_detatch p ?_
          rw [removedP_congr (rfl : (setEnt w e _).props = w.props) x]
          exact h

/-- `Entity.Delete` never clears a removed flag. -/
theorem removedP_true_delete {w : World} {x : Option Nat} (e? : Option Nat)
    (h : removedP w x = true) : removedP (delete w e?) x = true := by
  cases e? with
  | none => exact h
  | some e =>
    cases hent : w.entAt? e with
    | none => simpa [delete, hent] using h
    | some ent =>
      have hres : delete w (some e) =
          setEnt (detachAll w (ent.props.map Prod.snd)) e ⟨false, [], true⟩ := by
        simp [delete, hent]
      rw [hres]
      rw [removedP_congr (rfl : (setEnt _ e _).props = (detachAll w _).props) x]
      exact removedP_true_detachAll _ h

/-- No public operation ever clears the removed flag of an existing Prop. -/
theorem removedP_true_applyOp {w : World} {p : Nat} (op : Op)
    (hlt : p < w.props.length) (h : removedP w (some p) = true) :
    removedP (applyOp w op) (some p) = true := by
  cases op with
  | put e key data =>
    show removedP (put w e key data).1 (some p) = true
    rw [removedP_put e key data hlt]
    exact h
  | remove e key => exact removedP_true_remove e key h
  | propRemove q => exact removedP_true_propRemove (some q) h
  | delete e => exact removedP_true_delete (some e) h
  | newEntity inU =>
    show removedP (newEntity w inU).1 (some p) = true
    rw [removedP_congr (rfl : (newEntity w inU).1.props = w.props)]
    exact h
  | bumpMiss key =>
    show removedP (bumpMisses w key) (some p) = true
    rw [removedP_congr (props_bumpMisses w key)]
    exact h
  | compact key =>
    show removedP (tryCompact w key) (some p) = true
    rw [removedP_congr (props_tryCompact w key)]
    exact h

theorem length_props_finishPut (w₁ : World) (ent : Entity) (e : Nat) (n : String)
    (pid : Nat) (d : List Val) :
    (finishPut w₁ ent e n pid d).1.props.length = w₁.props.length := by
  unfold finishPut
  rw [length_props_setData]
  cases ent.u with
  | false => rfl
  | true => simp [props_appendDB, setEnt]

/-- The Prop heap never shrinks. -/
theorem length_le_applyOp (w : World) (op : Op) :
    w.props.length ≤ (applyOp w op).props.length := by
  cases op with
  | put e key data =>
    rcases put_shape w e key data with hw | ⟨q, _, hw⟩ | ⟨ent, q, _, _, _, _, hw⟩ |
        ⟨ent, _, _, _, hw⟩ <;>
      rw [show applyOp w (.put e key data) = (put w e key data).1 from rfl, hw]
    · exact le_of_eq (length_props_setData w q (putData data)).symm
    · rw [length_props_setData]
      simp
    · rw [length_props_finishPut]
      simp
  | remove e key =>
    cases hent : w.entAt? e with
    | none => simp [applyOp, remove, hent]
    | some ent =>
      cases hd : ent.deleted with
      | true => simp [applyOp, remove, hent, hd]
      | false =>
        cases hlk : lookupA ent.props key with
        | none => simp [applyOp, remove, hent, hd, hlk]
        | some p =>
          have hres : (remove w e key).1 =
              detatch (setEnt w e { ent with props := eraseA ent.props key }) p := by
            simp [remove, hent, hd, hlk]
          show w.props.length ≤ (remove w e key).1.props.length
          rw [hres, length_props_detatch]
          exact le_refl _
  | propRemove q =>
    show w.props.length ≤ (propRemove w (some q)).props.length
    cases hst : w.propAt? q with
    | none => simp [propRemove, hst]
    | some st =>
      cases hse : st.e with
      | none =>
        have hres : propRemove w (some q) = detatch w q := by
          simp [propRemove, hst, hse]
        rw [hres, length_props_detatch]
      | some e =>
        cases hent : w.entAt? e with
        | none =>
          have hres : propRemove w (some q) = detatch w q := by
            simp [propRemove, hst, hse, hent]
          rw [hres, length_props_detatch]
        | some ent =>
          have hres : propRemove w (some q) =
              detatch (setEnt w e { ent with props := eraseA ent.props st.key }) q := by
            simp [propRemove, hst, hse, hent]
          rw [hres, length_props_detatch]
          exact le_refl _
  | delete e =>
    show w.props.length ≤ (delete w (some e)).props.length
    cases hent : w.entAt? e with
    | none => simp [delete, hent]
    | some ent =>
      have hres : delete w (some e) =
          setEnt (detachAll w (ent.props.map Prod.snd)) e ⟨false, [], true⟩ := by
        simp [delete, hent]
      rw [hres]
      show w.props.length ≤ (detachAll w _).props.length
      rw [length_props_detachAll]
  | newEntity inU => exact le_refl _
  | bumpMiss key => exact le_of_eq (congrArg List.length (props_bumpMisses w key)).symm
  | compact key => exact le_of_eq (congrArg List.length (props_tryCompact w key)).symm

/-- Once a Prop's removed flag is set, no sequence of public operations ever
clears it again. -/
theorem removed_forever {w : World} {p : Nat} (ops : List Op)
    (hlt : p < w.props.length) (h : removedP w (some p) = true) :
    removedP (applyOps w ops) (some p) = true := by
  induction ops generalizing w with
  | nil => exact h
  | cons op rest ih =>
    exact ih (lt_of_lt_of_le hlt (length_le_applyOp w op)) (removedP_true_applyOp op hlt h)

theorem entAt?_congr {w w' : World} (h : w'.entities = w.entities) (e : Nat) :
    w'.entAt? e = w.entAt? e := by
  unfold World.entAt?
  rw [h]

theorem entAt?_finishPut_ne {w₁ : World} {ent : Entity} {e : Nat} {n : String}
    {pid : Nat} {d : List Val} {e' : Nat} (he' : e' ≠ e) :
    (finishPut w₁ ent e n pid d).1.entAt? e' = w₁.entAt? e' := by
  unfold finishPut
  rw [entAt?_setData]
  set ent' : Entity := { ent with props := insertA ent.props n pid } with hent'
  have h1 : (if ent.u then appendDB (setEnt w₁ e ent') n pid else setEnt w₁ e ent').entities
      = (setEnt w₁ e ent').entities := by
    cases ent.u with
    | false => rfl
    | true => simp [entities_appendDB]
  rw [entAt?_congr h1 e']
  exact entAt?_setEnt_ne w₁ he' ent'

/-- `Entity.Put` touches no other Entity's table. -/
theorem entAt?_put_ne {w : World} {e : Nat} {n : String} {d : List Val} {e' : Nat}
    (he' : e' ≠ e) : (put w e n d).1.entAt? e' = w.entAt? e' := by
  rcases put_shape w e n d with hw | ⟨q, _, hw⟩ | ⟨ent, q, _, _, _, _, hw⟩ | ⟨ent, _, _, _, hw⟩ <;>
    rw [hw]
  · exact entAt?_setData w q (putData d) e'
  · exact entAt?_setData _ q (putData d) e'
  · exact entAt?_finishPut_ne he'

/-- `Entity.Remove` touches no other Entity's table. -/
theorem entAt?_remove_ne {w : World} {e : Nat} {n : String} {e' : Nat}
    (he' : e' ≠ e) : (remove w e n).1.entAt? e' = w.entAt? e' := by
  cases hent : w.entAt? e with
  | none => simp [remove, hent]
  | some ent =>
    cases hd : ent.deleted with
    | true => simp [remove, hent, hd]
    | false =>
      cases hlk : lookupA ent.props n with
      | none => simp [remove, hent, hd, hlk]
      | some p =>
        have hres : (remove w e n).1 =
            detatch (setEnt w e { ent with props := eraseA ent.props n }) p := by
          simp [remove, hent, hd, hlk]
        rw [hres, entAt?_detatch]
        exact entAt?_setEnt_ne w he' _

/-- A successful `Remove` detaches exactly the looked-up Prop, erases the
slot, and afterwards `Get` finds nothing. -/
theorem remove_spec {w : World} {e : Nat} {ent : Entity} {n : String} {p : Nat}
    (hent : w.entAt? e = some ent) (hget : get w e n = some p) :
    remove w e n = (detatch (setEnt w e { ent with props := eraseA ent.props n }) p, some p) ∧
    removedP (remove w e n).1 (some p) = true ∧
    get (remove w e n).1 e n = none ∧
    (remove w e n).1.props.length = w.props.length ∧
    (remove w e n).1.entAt? e = some { ent with props := eraseA ent.props n } := by
  obtain ⟨ent₀, hent₀, hd, hlk, hrem⟩ := get_some_elim hget
  rw [hent] at hent₀
  cases Option.some.inj hent₀
  have hres : remove w e n =
      (detatch (setEnt w e { ent with props := eraseA ent.props n }) p, some p) := by
    simp [remove, hent, hd, hlk]
  obtain ⟨st, hst, hatt⟩ := get_some_propAt hrem
  have hstq : (setEnt w e { ent with props := eraseA ent.props n }).propAt? p = some st := hst
  have hremT : removedP (remove w e n).1 (some p) = true := by
    rw [hres]
    simp [removedP, propAt?_detatch_self hstq]
  have hentA : (remove w e n).1.entAt? e = some { ent with props := eraseA ent.props n } := by
    rw [hres]
    show (detatch _ p).entAt? e = _
    rw [entAt?_detatch]
    exact entAt?_setEnt_self hent _
  refine ⟨hres, hremT, ?_, ?_, hentA⟩
  · cases hgl : get (remove w e n).1 e n with
    | none => rfl
    | some q =>
      obtain ⟨ent₂, hent₂, _, hlk₂, _⟩ := get_some_elim hgl
      rw [hentA] at hent₂
      cases Option.some.inj hent₂
      rw [show ({ ent with props := eraseA ent.props n } : Entity).props = eraseA ent.props n from rfl,
        lookupA_eraseA_self] at hlk₂
      cases hlk₂
  · rw [hres]
    show (detatch _ p).props.length = _
    rw [length_props_detatch]
    rfl

/-- When no live entry exists, `Put` allocates the Prop at the next free heap
index: the returned reference is fresh. -/
theorem put_fresh {w : World} {e : Nat} {ent : Entity} (n : String) (d : List Val)
    (hent : w.entAt? e = some ent) (hdel : ent.deleted = false)
    (hget : get w e n = none) :
    (put w e n d).2 = some w.props.length ∧
    (put w e n d).1.props.length = w.props.length + 1 := by
  have hlp : loadProp w e n = none := hget
  cases hlk : lookupA ent.props n with
  | none =>
    have hres : put w e n d =
        finishPut { w with props := w.props ++ [⟨some e, n, true, .nil⟩] }
          ent e n w.props.length d := by
      simp [put, hent, hdel, hlp, hlk]
    rw [hres]
    refine ⟨rfl, ?_⟩
    rw [length_props_finishPut]
    simp
  | some q =>
    have hremq : removedP w (some q) = true := by
      cases hr : removedP w (some q) with
      | true => rfl
      | false => simp [get, loadProp, hent, hdel, hlk, hr] at hget
    cases hrem : removedP { w with props := w.props ++ [⟨some e, n, true, .nil⟩] } (some q) with
    | true =>
      have hres : put w e n d =
          finishPut { w with props := w.props ++ [⟨some e, n, true, .nil⟩] }
            ent e n w.props.length d := by
        simp [put, hent, hdel, hlp, hlk, hrem]
      rw [hres]
      refine ⟨rfl, ?_⟩
      rw [length_props_finishPut]
      simp
    | false =>
      have hq : q = w.props.length := by
        by_contra hq
        rw [removedP_heapAppend _ hq, hremq] at hrem
        cases hrem
      have hres : put w e n d =
          (setData { w with props := w.props ++ [⟨some e, n, true, .nil⟩] } q (putData d),
            some q) := by
        simp [put, hent, hdel, hlp, hlk, hrem]
      rw [hres, hq]
      refine ⟨rfl, ?_⟩
      rw [length_props_setData]
      simp

/-- A deleted Entity's record (no universe link, empty table, deleted flag)
survives any single public operation unchanged. -/
theorem deleted_applyOp {w : World} {e : Nat}
    (h : w.entAt? e = some ⟨false, [], true⟩) (op : Op) :
    (applyOp w op).entAt? e = some ⟨false, [], true⟩ := by
  cases op with
  | put e' key data =>
    show (put w e' key data).1.entAt? e = _
    by_cases he' : e = e'
    · subst he'
      have hres : (put w e key data).1 = w := by simp [put, h]
      rw [hres]
      exact h
    · rw [entAt?_put_ne he']
      exact h
  | remove e' key =>
    show (remove w e' key).1.entAt? e = _
    by_cases he' : e = e'
    · subst he'
      have hres : (remove w e key).1 = w := by simp [remove, h]
      rw [hres]
      exact h
    · rw [entAt?_remove_ne he']
      exact h
  | propRemove p =>
    show (propRemove w (some p)).entAt? e = _
    cases hst : w.propAt? p with
    | none => simpa [propRemove, hst] using h
    | some st =>
      cases hse : st.e with
      | none =>
        have hres : propRemove w (some p) = detatch w p := by
          simp [propRemove, hst, hse]
        rw [hres, entAt?_detatch]
        exact h
      | some e₀ =>
        cases hent₀ : w.entAt? e₀ with
        | none =>
          have hres : propRemove w (some p) = detatch w p := by
            simp [propRemove, hst, hse, hent₀]
          rw [hres, entAt?_detatch]
          exact h
        | some ent₀ =>
          have hres : propRemove w (some p) =
              detatch (setEnt w e₀ { ent₀ with props := eraseA ent₀.props st.key }) p := by
            simp [propRemove, hst, hse, hent₀]
          rw [hres, entAt?_detatch]
          by_cases he₀ : e = e₀
          · subst he₀
            rw [hent₀] at h
            cases Option.some.inj h
            exact entAt?_setEnt_self hent₀ _
          · rw [entAt?_setEnt_ne w (fun hc => he₀ hc) _]
            exact h
  | delete e' =>
    show (delete w (some e')).entAt? e = _
    by_cases he' : e = e'
    · subst he'
      have hres : delete w (some e) =
          setEnt (detachAll w (([] : List (String × Nat)).map Prod.snd)) e ⟨false, [], true⟩ := by
        simp [delete, h]
      rw [hres]
      exact entAt?_setEnt_self ((entAt?_congr (entities_detachAll w _) e).symm ▸ h) _
    · cases hent' : w.entAt? e' with
      | none => simpa [delete, hent'] using h
      | some ent' =>
        have hres : delete w (some e') =
            setEnt (detachAll w (ent'.props.map Prod.snd)) e' ⟨false, [], true⟩ := by
          simp [delete, hent']
        rw [hres, entAt?_setEnt_ne _ he' _, entAt?_congr (entities_detachAll w _) e]
        exact h
  | newEntity inU =>
    show nth (w.entities ++ _) e = _
    rw [nth_append_left _ (nth_lt_length h)]
    exact h
  | bumpMiss key =>
    show (bumpMisses w key).entAt? e = _
    rw [entAt?_congr (entities_bumpMisses w key) e]
    exact h
  | compact key =>
    show (tryCompact w key).entAt? e = _
    rw [entAt?_congr (entities_tryCompact w key) e]
    exact h

/-- A deleted Entity's record survives any sequence of public operations. -/
theorem deleted_forever {w : World} {e : Nat}
    (h : w.entAt? e = some ⟨false, [], true⟩) (ops : List Op) :
    (applyOps w ops).entAt? e = some ⟨false, [], true⟩ := by
  induction ops generalizing w with
  | nil => exact h
  | cons op rest ih => exact ih (deleted_applyOp h op)

theorem dataP_congr_at {w w' : World} {p : Nat}
    (h : w'.propAt? p = w.propAt? p) : dataP w' (some p) = dataP w (some p) := by
  show (match w'.propAt? p with | some st => st.data | none => .nil) =
    (match w.propAt? p with | some st => st.data | none => .nil)
  rw [h]

theorem removedP_congr_at {w w' : World} {p : Nat}
    (h : w'.propAt? p = w.propAt? p) : removedP w' (some p) = removedP w (some p) := by
  rw [removedP_some, removedP_some, h]

theorem propAt?_detatch_congr {w : World} {q p : Nat} (h : p ≠ q) :
    (detatch w q).propAt? p = w.propAt? p := propAt?_detatch_ne w h

theorem propAt?_finishPut_ne {w₁ : World} {ent : Entity} {e : Nat} {n : String}
    {pid : Nat} {d : List Val} {q : Nat} (hq : q ≠ pid) :
    (finishPut w₁ ent e n pid d).1.propAt? q = w₁.propAt? q := by
  unfold finishPut
  rw [propAt?_setData_ne _ hq]
  show nth _ q = nth w₁.props q
  cases ent.u with
  | false => rfl
  | true => simp [props_appendDB, setEnt]

theorem entAt?_finishPut_self {w₁ : World} {ent ent₁ : Entity} {e : Nat} {n : String}
    {pid : Nat} {d : List Val} (hent₁ : w₁.entAt? e = some ent₁) :
    (finishPut w₁ ent e n pid d).1.entAt? e =
      some { ent with props := insertA ent.props n pid } := by
  unfold finishPut
  rw [entAt?_setData]
  set ent' : Entity := { ent with props := insertA ent.props n pid } with hent'
  have h1 : (if ent.u then appendDB (setEnt w₁ e ent') n pid else setEnt w₁ e ent').entities
      = (setEnt w₁ e ent').entities := by
    cases ent.u with
    | false => rfl
    | true => simp [entities_appendDB]
  rw [entAt?_congr h1 e]
  exact entAt?_setEnt_self hent₁ ent'

/-- The operations that claim C4 exempts: anything other than a Put or
Remove of the very slot, a `Prop.Remove` of the very entry, and a Delete of
the very Entity. -/
def Admissible (e : Nat) (n : String) (p : Nat) : Op → Prop
  | .put e' k _ => ¬(e' = e ∧ k = n)
  | .remove e' k => ¬(e' = e ∧ k = n)
  | .propRemove p' => p' ≠ p
  | .delete e' => e' ≠ e
  | _ => True

/-- Under the invariant, a live table entry (and its payload) survives any
single operation that does not target its slot, its Prop or its Entity. -/
theorem hasLive_applyOp {w : World} {e : Nat} {n : String} {p : Nat}
    (hInv : Inv w) (hget : get w e n = some p) (op : Op) (hadm : Admissible e n p op) :
    get (applyOp w op) e n = some p ∧
    dataP (applyOp w op) (some p) = dataP w (some p) := by
  obtain ⟨ent, hent, hdel, hlk, hrem⟩ := get_some_elim hget
  obtain ⟨stp, hstp, hattp⟩ := get_some_propAt hrem
  obtain ⟨stp', hstp', hkeyp, _, hep⟩ := hInv.tableWF e ent (n, p) hent (mem_of_lookupA hlk)
  rw [hstp] at hstp'
  cases Option.some.inj hstp'
  -- a uniform closer given the three preserved components
  have main : ∀ w' : World, w'.propAt? p = w.propAt? p →
      (∃ ent₂, w'.entAt? e = some ent₂ ∧ ent₂.deleted = false ∧
        lookupA ent₂.props n = some p) →
      get w' e n = some p ∧ dataP w' (some p) = dataP w (some p) := by
    intro w' hp ⟨ent₂, hent₂, hdel₂, hlk₂⟩
    refine ⟨loadProp_intro hent₂ hdel₂ hlk₂ (hp.trans hstp) hattp, dataP_congr_at hp⟩
  cases op with
  | put e' k d =>
    show get (put w e' k d).1 e n = some p ∧ dataP (put w e' k d).1 (some p) = dataP w (some p)
    rcases put_shape w e' k d with hw | ⟨q, hqlp, hw⟩ | ⟨ent₁, q, hent₁, hdel₁, hlp₁, hlk₁, hw⟩ |
        ⟨ent₁, hent₁, hdel₁, hlp₁, hw⟩ <;> rw [hw]
    · exact ⟨hget, rfl⟩
    · -- live entry (e', k) overwritten in place; it differs from (e, n)'s entry
      obtain ⟨entq, hentq, hdq, hlkq, hremq⟩ := get_some_elim (show get w e' k = some q from hqlp)
      obtain ⟨stq, hstq, hkq, _, heq⟩ := hInv.tableWF e' entq (k, q) hentq (mem_of_lookupA hlkq)
      have hqp : q ≠ p := by
        intro hc
        subst hc
        rw [hstp] at hstq
        cases Option.some.inj hstq
        refine hadm ⟨?_, ?_⟩
        · rw [heq] at hep
          exact Option.some.inj hep
        · exact hkq.symm.trans hkeyp
      refine main _ (propAt?_setData_ne w (fun hc => hqp hc.symm) (putData d))
        ⟨ent, ?_, hdel, hlk⟩
      rw [entAt?_setData]
      exact hent
    · -- dead code under the invariant: the slot would hold a stale entry
      rw [loadProp_eq_lookup hInv hent₁ hdel₁ k] at hlp₁
      rw [hlp₁] at hlk₁
      cases hlk₁
    · -- fresh allocation for (e', k)
      have hplt : p < w.props.length := nth_lt_length hstp
      have hpne : p ≠ w.props.length := Nat.ne_of_lt hplt
      have hp : (finishPut { w with props := w.props ++ [⟨some e', k, true, .nil⟩] }
          ent₁ e' k w.props.length d).1.propAt? p = w.propAt? p :=
        (propAt?_finishPut_ne hpne).trans (nth_append_ne _ hpne)
      by_cases hee : e' = e
      · subst hee
        have hkn : k ≠ n := fun hc => hadm ⟨rfl, hc⟩
        have he₁ : ent₁ = ent := by
          rw [hent₁] at hent
          exact Option.some.inj hent
        subst he₁
        refine main _ hp ⟨{ ent₁ with props := insertA ent₁.props k w.props.length },
          entAt?_finishPut_self (by exact hent₁), hdel₁, ?_⟩
        show lookupA (insertA ent₁.props k w.props.length) n = some p
        rw [lookupA_insertA_ne ent₁.props (fun hc => hkn hc.symm)]
        exact hlk
      · refine main _ hp ⟨ent, ?_, hdel, hlk⟩
        rw [entAt?_finishPut_ne (fun hc => hee hc.symm)]
        exact hent
  | remove e' k =>
    show get (remove w e' k).1 e n = some p ∧ dataP (remove w e' k).1 (some p) = dataP w (some p)
    cases hent' : w.entAt? e' with
    | none =>
      have hres : (remove w e' k).1 = w := by simp [remove, hent']
      rw [hres]
      exact ⟨hget, rfl⟩
    | some ent' =>
      cases hd' : ent'.deleted with
      | true =>
        have hres : (remove w e' k).1 = w := by simp [remove, hent', hd']
        rw [hres]
        exact ⟨hget, rfl⟩
      | false =>
        cases hlk' : lookupA ent'.props k with
        | none =>
          have hres : (remove w e' k).1 = w := by simp [remove, hent', hd', hlk']
          rw [hres]
          exact ⟨hget, rfl⟩
        | some q =>
          have hres : (remove w e' k).1 =
              detatch (setEnt w e' { ent' with props := eraseA ent'.props k }) q := by
            simp [remove, hent', hd', hlk']
          rw [hres]
          obtain ⟨stq, hstq, hkq, _, heq⟩ :=
            hInv.tableWF e' ent' (k, q) hent' (mem_of_lookupA hlk')
          have hqp : q ≠ p := by
            intro hc
            subst hc
            rw [hstp] at hstq
            cases Option.some.inj hstq
            refine hadm ⟨?_, ?_⟩
            · rw [heq] at hep
              exact Option.some.inj hep
            · exact hkq.symm.trans hkeyp
          have hp : (detatch (setEnt w e' { ent' with props := eraseA ent'.props k }) q).propAt? p
              = w.propAt? p := propAt?_detatch_congr (fun hc => hqp hc.symm)
          by_cases hee : e' = e
          · subst hee
            have hkn : k ≠ n := fun hc => hadm ⟨rfl, hc⟩
            have he₁ : ent' = ent := by
              rw [hent'] at hent
              exact Option.some.inj hent
            subst he₁
            refine main _ hp ⟨{ ent' with props := eraseA ent'.props k }, ?_, hd', ?_⟩
            · rw [entAt?_detatch]
              exact entAt?_setEnt_self hent' _
            · show lookupA (eraseA ent'.props k) n = some p
              rw [lookupA_eraseA_ne ent'.props (fun hc => hkn hc.symm)]
              exact hlk
          · refine main _ hp ⟨ent, ?_, hdel, hlk⟩
            rw [entAt?_detatch, entAt?_setEnt_ne w (fun hc => hee hc.symm) _]
            exact hent
  | propRemove p' =>
    show get (propRemove w (some p')) e n = some p ∧
      dataP (propRemove w (some p')) (some p) = dataP w (some p)
    have hp'p : p' ≠ p := hadm
    cases hst' : w.propAt? p' with
    | none =>
      have hres : propRemove w (some p') = w := by simp [propRemove, hst']
      rw [hres]
      exact ⟨hget, rfl⟩
    | some st' =>
      cases hse' : st'.e with
      | none =>
        have hres : propRemove w (some p') = detatch w p' := by
          simp [propRemove, hst', hse']
        rw [hres]
        exact main _ (propAt?_detatch_congr (fun hc => hp'p hc.symm))
          ⟨ent, (entAt?_detatch w p' e).symm ▸ hent, hdel, hlk⟩
      | some e₀ =>
        have hatt' : st'.attached = true := by
          cases ha : st'.attached with
          | true => rfl
          | false =>
            have hc := hInv.ownWF p' st' hst' ha
            rw [hse'] at hc
            cases hc
        obtain ⟨e₁, ent₁, he₁, hent₁, hlk₁⟩ := hInv.attWF p' st' hst' hatt'
        rw [hse'] at he₁
        have he₀ : e₁ = e₀ := Option.some.inj he₁.symm
        subst he₀
        cases hent₀ : w.entAt? e₁ with
        | none => rw [hent₀] at hent₁; cases hent₁
        | some ent₀ =>
          have hee : ent₀ = ent₁ := by
            rw [hent₀] at hent₁
            exact Option.some.inj hent₁
          subst hee
          have hres : propRemove w (some p') =
              detatch (setEnt w e₁ { ent₀ with props := eraseA ent₀.props st'.key }) p' := by
            simp [propRemove, hst', hse', hent₀]
          rw [hres]
          have hp : (detatch (setEnt w e₁ { ent₀ with props := eraseA ent₀.props st'.key }) p').propAt? p
              = w.propAt? p := propAt?_detatch_congr (fun hc => hp'p hc.symm)
          by_cases he₀e : e₁ = e
          · subst he₀e
            have he₂ : ent₀ = ent := by
              rw [hent₀] at hent
              exact Option.some.inj hent
            subst he₂
            have hkn : st'.key ≠ n := by
              intro hc
              rw [hc] at hlk₁
              exact hp'p (lookupA_det hlk₁ hlk)
            refine main _ hp ⟨{ ent₀ with props := eraseA ent₀.props st'.key }, ?_, hdel, ?_⟩
            · rw [entAt?_detatch]
              exact entAt?_setEnt_self hent₀ _
            · show lookupA (eraseA ent₀.props st'.key) n = some p
              rw [lookupA_eraseA_ne ent₀.props (fun hc => hkn hc.symm)]
              exact hlk
          · refine main _ hp ⟨ent, ?_, hdel, hlk⟩
            rw [entAt?_detatch, entAt?_setEnt_ne w (fun hc => he₀e hc.symm) _]
            exact hent
  | delete e' =>
    show get (delete w (some e')) e n = some p ∧
      dataP (delete w (some e')) (some p) = dataP w (some p)
    have he'e : e' ≠ e := hadm
    cases hent' : w.entAt? e' with
    | none =>
      have hres : delete w (some e') = w := by simp [delete, hent']
      rw [hres]
      exact ⟨hget, rfl⟩
    | some ent' =>
      have hres : delete w (some e') =
          setEnt (detachAll w (ent'.props.map Prod.snd)) e' ⟨false, [], true⟩ := by
        simp [delete, hent']
      rw [hres]
      have hnotin : p ∉ ent'.props.map Prod.snd := by
        intro hin
        obtain ⟨kv, hkv, hkv2⟩ := List.mem_map.mp hin
        obtain ⟨stq, hstq, _, _, heq⟩ := hInv.tableWF e' ent' kv hent' hkv
        rw [hkv2, hstp] at hstq
        cases Option.some.inj hstq
        exact he'e (Option.some.inj (heq ▸ hep))
      have hp : (setEnt (detachAll w (ent'.props.map Prod.snd)) e' ⟨false, [], true⟩).propAt? p
          = w.propAt? p := by
        rw [propAt?_setEnt, propAt?_detachAll]
        rw [hstp]
        simp [hnotin]
      refine main _ hp ⟨ent, ?_, hdel, hlk⟩
      rw [entAt?_setEnt_ne _ (fun hc => he'e hc.symm) _,
        entAt?_congr (entities_detachAll w _) e]
      exact hent
  | newEntity inU =>
    show get (newEntity w inU).1 e n = some p ∧
      dataP (newEntity w inU).1 (some p) = dataP w (some p)
    refine main _ rfl ⟨ent, ?_, hdel, hlk⟩
    show nth (w.entities ++ _) e = some ent
    rw [nth_append_left _ (nth_lt_length hent)]
    exact hent
  | bumpMiss key =>
    show get (bumpMisses w key) e n = some p ∧
      dataP (bumpMisses w key) (some p) = dataP w (some p)
    refine main _ ?_ ⟨ent, ?_, hdel, hlk⟩
    · show nth (bumpMisses w key).props p = w.propAt? p
      rw [props_bumpMisses]
      rfl
    · rw [entAt?_congr (entities_bumpMisses w key) e]
      exact hent
  | compact key =>
    show get (tryCompact w key) e n = some p ∧
      dataP (tryCompact w key) (some p) = dataP w (some p)
    refine main _ ?_ ⟨ent, ?_, hdel, hlk⟩
    · show nth (tryCompact w key).props p = w.propAt? p
      rw [props_tryCompact]
      rfl
    · rw [entAt?_congr (entities_tryCompact w key) e]
      exact hent

/-- Under the invariant, a live table entry (and its payload) survives any
sequence of operations none of which targets its slot, its Prop or its
Entity. -/
theorem hasLive_applyOps {w : World} {e : Nat} {n : String} {p : Nat}
    (hInv : Inv w) (hget : get w e n = some p) (ops : List Op)
    (hadm : ∀ op ∈ ops, Admissible e n p op) :
    get (applyOps w ops) e n = some p ∧
    dataP (applyOps w ops) (some p) = dataP w (some p) := by
  induction ops generalizing w with
  | nil => exact ⟨hget, rfl⟩
  | cons op rest ih =>
    have h1 := hasLive_applyOp hInv hget op (hadm op (List.mem_cons_self op rest))
    have h2 := ih (inv_applyOp hInv op) h1.1 (fun o ho => hadm o (List.mem_cons_of_mem op ho))
    exact ⟨h2.1, h2.2.trans h1.2⟩

/-! ### Concrete scenarios used by the claims -/

/-- The identity sweep callback (`func(p *Prop) bool { return true }`). -/
def sweepTrue : World → Nat → World × Bool := fun w _ => (w, true)

/-- A sweep callback that stops at its first visit. -/
def sweepStop : World → Nat → World × Bool := fun w _ => (w, false)

/-- `n` repeated `Range` calls over `key` with the identity callback. -/
def iterSweep (key : String) : Nat → World → World
  | 0, w => w
  | Nat.succ m, w => (range (iterSweep key m w) key sweepTrue).1

/-- Three universe entities carrying "k"; the middle entry is then removed.
The "k" bucket holds `[0, 1, 2]` with Prop 1 removed, Props 0 and 2 live. -/
def compactScenario : World :=
  applyOps World.init
    [.newEntity true, .newEntity true, .newEntity true,
     .put 0 "k" [], .put 1 "k" [], .put 2 "k" [], .remove 1 "k"]

/-- The same store with the "k" bucket's miss counter at `m`. -/
def compactScenarioAt (m : Nat) : World :=
  { props := [⟨some 0, "k", true, .nil⟩, ⟨none, "k", false, .nil⟩, ⟨some 2, "k", true, .nil⟩],
    entities := [⟨true, [("k", 0)], false⟩, ⟨true, [], false⟩, ⟨true, [("k", 2)], false⟩],
    buckets := [("k", ⟨[0, 1, 2], m⟩)] }

theorem compactScenario_eq : compactScenario = compactScenarioAt 0 := by decide

/-- One sweep below the threshold only counts the one miss. -/
theorem compact_sweep_step (m : Nat) (h : m + 1 < 500) :
    (range (compactScenarioAt m) "k" sweepTrue).1 = compactScenarioAt (m + 1) := by
  have h1 : (rangeProps "k" sweepTrue (compactScenarioAt m) [0, 1, 2]).1 =
      compactScenarioAt (m + 1) := rfl
  have hl : lookupBucket (compactScenarioAt (m + 1)) "k" = some ⟨[0, 1, 2], m + 1⟩ := rfl
  have h2 : tryCompact (compactScenarioAt (m + 1)) "k" = compactScenarioAt (m + 1) := by
    simp [tryCompact, hl, h, bucketMissesBeforeCompact]
  show tryCompact (rangeProps "k" sweepTrue (compactScenarioAt m) [0, 1, 2]).1 "k" = _
  rw [h1, h2]

theorem compact_iter_eq : ∀ m, m ≤ 499 →
    iterSweep "k" m compactScenario = compactScenarioAt m := by
  intro m
  induction m with
  | zero => exact fun _ => compactScenario_eq
  | succ k ih =>
    intro h
    show (range (iterSweep "k" k compactScenario) "k" sweepTrue).1 = _
    rw [ih (Nat.le_of_succ_le h)]
    exact compact_sweep_step k (Nat.lt_of_le_of_lt h (by decide))

/-- The 500th sweep reaches the threshold and compacts. -/
theorem compact_iter500 : iterSweep "k" 500 compactScenario =
    { compactScenarioAt 500 with buckets := [("k", ⟨[0, 1], 0⟩)] } := by
  show (range (iterSweep "k" 499 compactScenario) "k" sweepTrue).1 = _
  rw [compact_iter_eq 499 (by decide)]
  show tryCompact (rangeProps "k" sweepTrue (compactScenarioAt 499) [0, 1, 2]).1 "k" = _
  rw [show (rangeProps "k" sweepTrue (compactScenarioAt 499) [0, 1, 2]).1 =
    compactScenarioAt 500 from rfl]
  decide

/-- Two universe entities both carrying "k". -/
def twoK : World :=
  applyOps World.init [.newEntity true, .newEntity true, .put 0 "k" [], .put 1 "k" []]

/-- A callback that removes both entities' "k" entries. -/
def fnRemoveBoth : World → Nat → World × Bool :=
  fun v _ => ((remove (remove v 0 "k").1 1 "k").1, true)

/-- One universe entity carrying "k". -/
def oneK : World := applyOps World.init [.newEntity true, .put 0 "k" []]

/-- A callback that creates a brand-new universe Entity with attribute "k". -/
def fnNewK : World → Nat → World × Bool :=
  fun v _ =>
    let s := newEntity v true
    ((put s.1 s.2 "k" []).1, true)

/-- `twoK` after removing Entity 0's "k" entry: the bucket still holds the
stale reference 0. -/
def twoKRem : World := (remove twoK 0 "k").1

/-! ### The claims -/

/-- C1: after a Range/Sweep over a key, compaction runs exactly when the miss
counter has reached 500; the claim further says the stored sequence then
becomes exactly the subsequence of non-removed entries in order.  The code
violates that: starting from a reachable store whose "k" bucket is
`[0, 1, 2]` with only entry 1 removed, 499 sweeps leave the bucket intact
with 499 misses, and the 500th sweep triggers compaction (the counter
resets to zero) — but the compacted sequence is `[0, 1]`: the removed entry
1 is kept and the live entry 2 is dropped, while the subsequence of
non-removed entries is `[0, 2]`; afterwards a sweep visits only entry 0.
This evaluates the embedded code at the failing input, exhibiting the bug
(`slices.CompactFunc` hands the eq function the current element first and
its predecessor second, so `func(a, b *Prop) bool { return b.Removed() }`
tests the predecessor instead of the current entry). -/
theorem tryCompact_keeps_removed_drops_live :
    iterSweep "k" 499 compactScenario = compactScenarioAt 499 ∧
    lookupBucket (compactScenarioAt 499) "k" = some ⟨[0, 1, 2], 499⟩ ∧
    lookupBucket (iterSweep "k" 500 compactScenario) "k" = some ⟨[0, 1], 0⟩ ∧
    removedP (iterSweep "k" 500 compactScenario) (some 0) = false ∧
    removedP (iterSweep "k" 500 compactScenario) (some 1) = true ∧
    removedP (iterSweep "k" 500 compactScenario) (some 2) = false ∧
    List.filter (fun p => !(removedP (iterSweep "k" 500 compactScenario) (some p)))
      [0, 1, 2] = [0, 2] ∧
    (range (iterSweep "k" 500 compactScenario) "k" sweepTrue).2 = [0] := by
  refine ⟨compact_iter_eq 499 (by decide), rfl, ?_, ?_, ?_, ?_, ?_, ?_⟩ <;>
    rw [compact_iter500] <;> decide

/-- C2: a sweep re-checks each snapshot entry's liveness at the moment it is
visited: in the two-entity scenario whose callback removes both "k" entries
on its first visit, the callback runs exactly once and the skipped second
entry adds one miss; in general a removed-at-visit entry is skipped (the
sweep continues on the rest after bumping the miss counter), and a false
return from the callback stops the sweep at once, visiting nothing further. -/
theorem sweep_visit_time_liveness :
    ((range twoK "k" fnRemoveBoth).2 = [0] ∧
     lookupBucket (range twoK "k" fnRemoveBoth).1 "k" = some ⟨[0, 1], 1⟩) ∧
    (∀ (key : String) (fn : World → Nat → World × Bool) (w : World) (p : Nat)
       (ps : List Nat), removedP w (some p) = true →
      rangeProps key fn w (p :: ps) = rangeProps key fn (bumpMisses w key) ps) ∧
    (∀ (key : String) (fn : World → Nat → World × Bool) (w w₁ : World) (p : Nat)
       (ps : List Nat), removedP w (some p) = false → fn w p = (w₁, false) →
      rangeProps key fn w (p :: ps) = (w₁, [p])) := by
  refine ⟨⟨by decide, by decide⟩, ?_, ?_⟩
  · intro key fn w p ps h
    simp [rangeProps, h]
  · intro key fn w w₁ p ps h hfn
    simp [rangeProps, h, hfn]

/-- Witness for C2 at concrete inputs. -/
theorem sweep_visit_time_liveness_witness :
    (removedP twoKRem (some 0) = true ∧
     rangeProps "k" sweepTrue twoKRem [0] =
       rangeProps "k" sweepTrue (bumpMisses twoKRem "k") []) ∧
    (removedP twoK (some 0) = false ∧ sweepStop twoK 0 = (twoK, false) ∧
     rangeProps "k" sweepStop twoK [0, 1] = (twoK, [0])) :=
  ⟨⟨by decide, sweep_visit_time_liveness.2.1 "k" sweepTrue twoKRem 0 [] (by decide)⟩,
   ⟨by decide, rfl,
    sweep_visit_time_liveness.2.2 "k" sweepStop twoK twoK 0 [1] (by decide) rfl⟩⟩

/-- C3: a sweep only ever visits references present in the snapshot taken at
call time, so entries appended to the bucket during the sweep (here: a
callback creating a new Entity with attribute "k") are not visited by that
sweep and do not change its invocation count; the next Sweep call sees
them. -/
theorem sweep_snapshot_isolation :
    (∀ (key : String) (fn : World → Nat → World × Bool) (w : World) (ps : List Nat)
       (p : Nat), p ∈ (rangeProps key fn w ps).2 → p ∈ ps) ∧
    ((range oneK "k" fnNewK).2 = [0] ∧
     (range (range oneK "k" fnNewK).1 "k" fnNewK).2 = [0, 1]) := by
  constructor
  · intro key fn w ps
    induction ps generalizing w with
    | nil =>
      intro p hp
      simp [rangeProps] at hp
    | cons q rest ih =>
      intro p hp
      cases hrem : removedP w (some q) with
      | true =>
        rw [show rangeProps key fn w (q :: rest) =
            rangeProps key fn (bumpMisses w key) rest from by simp [rangeProps, hrem]] at hp
        exact List.mem_cons_of_mem q (ih _ p hp)
      | false =>
        cases hfn : fn w q with
        | mk w₁ cont =>
          cases cont with
          | true =>
            rw [show rangeProps key fn w (q :: rest) =
                ((rangeProps key fn w₁ rest).1, q :: (rangeProps key fn w₁ rest).2) from by
              simp [rangeProps, hrem, hfn]] at hp
            rcases List.mem_cons.mp hp with hq | hp
            · exact hq ▸ List.mem_cons_self q rest
            · exact List.mem_cons_of_mem q (ih _ p hp)
          | false =>
            rw [show rangeProps key fn w (q :: rest) = (w₁, [q]) from by
              simp [rangeProps, hrem, hfn]] at hp
            simp at hp
            exact hp ▸ List.mem_cons_self q rest
  · exact ⟨by decide, by decide⟩

/-- Witness for C3 at a concrete input. -/
theorem sweep_snapshot_isolation_witness :
    (0 ∈ (rangeProps "k" sweepTrue twoK [0, 1]).2) ∧ 0 ∈ [0, 1] :=
  ⟨by decide, sweep_snapshot_isolation.1 "k" sweepTrue twoK [0, 1] 0 (by decide)⟩

/-- One universe entity on which "a" is set to 1 and then overwritten to 2. -/
def c4World : World := (put (put ((newEntity World.init true).1) 0 "a" [1]).1 0 "a" [2]).1

/-- C4 counterexample: after `Set("a", 1)` a further operation — a second
`Set("a", 2)` on the same entity — leaves the entry live and the entity
undeleted, yet `Payload()` is now 2, not 1.  So "Get(n).Payload() equals v
until the entry is removed or the entity is deleted" fails as stated. -/
theorem put_overwrite_payload_counterexample :
    get c4World 0 "a" = some 0 ∧
    dataP c4World (some 0) = .one 2 ∧
    Payload.one 2 ≠ Payload.one 1 ∧
    removedP c4World (some 0) = false ∧
    (c4World.entAt? 0).map Entity.deleted = some false := by decide

/-- C4 (amended): immediately after `Set(n, v)`, `Has(n)` is true and the
returned live entry's `Payload()` is `v`; and that state persists under any
further operations that do not remove the entry (`Entity.Remove`/
`Prop.Remove` of it), do not delete the entity, and do not overwrite the
slot with another `Set(n, …)` on the same entity. -/
theorem put_hasLive_until_removed :
    (∀ (w : World) (e : Nat) (ent : Entity) (n : String) (v : Val),
      w.entAt? e = some ent → ent.deleted = false →
      ∃ p, (put w e n [v]).2 = some p ∧ has (put w e n [v]).1 e n = true ∧
        get (put w e n [v]).1 e n = some p ∧
        dataP (put w e n [v]).1 (some p) = .one v) ∧
    (∀ (w : World) (e : Nat) (n : String) (p : Nat) (op : Op), Inv w →
      get w e n = some p → Admissible e n p op →
      get (applyOp w op) e n = some p ∧
      dataP (applyOp w op) (some p) = dataP w (some p)) ∧
    (∀ (w : World) (e : Nat) (n : String) (p : Nat) (ops : List Op), Inv w →
      get w e n = some p → (∀ op ∈ ops, Admissible e n p op) →
      get (applyOps w ops) e n = some p ∧
      dataP (applyOps w ops) (some p) = dataP w (some p)) := by
  refine ⟨?_, ?_, ?_⟩
  · intro w e ent n v hent hdel
    obtain ⟨p, h1, h2, h3⟩ := put_spec n [v] hent hdel
    refine ⟨p, h1, ?_, h2, h3⟩
    unfold has
    rw [h2]
    rfl
  · intro w e n p op hInv hget hadm
    exact hasLive_applyOp hInv hget op hadm
  · intro w e n p ops hInv hget hadm
    exact hasLive_applyOps hInv hget ops hadm

/-- Witness for C4 (amended) at concrete inputs. -/
theorem put_hasLive_until_removed_witness :
    (∃ p, (put oneK 0 "b" [7]).2 = some p ∧ has (put oneK 0 "b" [7]).1 0 "b" = true ∧
      get (put oneK 0 "b" [7]).1 0 "b" = some p ∧
      dataP (put oneK 0 "b" [7]).1 (some p) = .one 7) ∧
    (get (applyOp oneK (.newEntity true)) 0 "k" = some 0 ∧
     dataP (applyOp oneK (.newEntity true)) (some 0) = dataP oneK (some 0)) ∧
    (get (applyOps oneK [.newEntity true]) 0 "k" = some 0 ∧
     dataP (applyOps oneK [.newEntity true]) (some 0) = dataP oneK (some 0)) := by
  have h := put_hasLive_until_removed
  refine ⟨h.1 oneK 0 ⟨true, [("k", 0)], false⟩ "b" 7 rfl rfl,
    h.2.1 oneK 0 "k" 0 (.newEntity true) (inv_applyOps inv_init _) (by decide) trivial,
    h.2.2 oneK 0 "k" 0 [.newEntity true] (inv_applyOps inv_init _) (by decide) ?_⟩
  intro op hop
  rw [List.mem_singleton.mp hop]
  trivial

/-- C5: two consecutive `Set(n, …)` calls with no intervening removal return
the identical entry instance the second time; the second call only mutates
that entry's payload: the Prop heap does not grow, the buckets are
untouched, and every entity table is unchanged. -/
theorem put_idempotent_same_instance :
    ∀ (w : World) (e : Nat) (ent : Entity) (n : String) (d₁ d₂ : List Val),
      w.entAt? e = some ent → ent.deleted = false →
      ∃ p, (put w e n d₁).2 = some p ∧
        put (put w e n d₁).1 e n d₂ = (setData (put w e n d₁).1 p (putData d₂), some p) ∧
        (put (put w e n d₁).1 e n d₂).1.props.length = (put w e n d₁).1.props.length ∧
        (put (put w e n d₁).1 e n d₂).1.buckets = (put w e n d₁).1.buckets ∧
        (put (put w e n d₁).1 e n d₂).1.entities = (put w e n d₁).1.entities := by
  intro w e ent n d₁ d₂ hent hdel
  obtain ⟨p, h1, h2, _⟩ := put_spec n d₁ hent hdel
  have heq := put_of_get_some h2 d₂
  refine ⟨p, h1, heq, ?_, ?_, ?_⟩ <;> rw [heq]
  · exact length_props_setData ..
  · exact buckets_setData ..
  · exact entities_setData ..

/-- Witness for C5 at a concrete input. -/
theorem put_idempotent_same_instance_witness :
    ∃ p, (put oneK 0 "k" [1]).2 = some p ∧
      put (put oneK 0 "k" [1]).1 0 "k" [2] =
        (setData (put oneK 0 "k" [1]).1 p (putData [2]), some p) ∧
      (put (put oneK 0 "k" [1]).1 0 "k" [2]).1.props.length =
        (put oneK 0 "k" [1]).1.props.length ∧
      (put (put oneK 0 "k" [1]).1 0 "k" [2]).1.buckets = (put oneK 0 "k" [1]).1.buckets ∧
      (put (put oneK 0 "k" [1]).1 0 "k" [2]).1.entities = (put oneK 0 "k" [1]).1.entities :=
  put_idempotent_same_instance oneK 0 ⟨true, [("k", 0)], false⟩ "k" [1] [2] rfl rfl

/-- C6: removing a live entry and re-setting the same name yields a fresh
entry instance, distinct from the first; the first entry's removed flag is
set by the removal and never reverts under the re-set or any further
sequence of operations.  `Prop.Remove` of the entry acts exactly like
`Entity.Remove` of its name (so the same facts hold on that path), and in
general a set removed flag is permanent. -/
theorem remove_put_allocates_fresh :
    (∀ (w : World) (e : Nat) (ent : Entity) (n : String) (d' : List Val) (p₁ : Nat),
      w.entAt? e = some ent → ent.deleted = false → get w e n = some p₁ →
      (remove w e n).2 = some p₁ ∧
      removedP (remove w e n).1 (some p₁) = true ∧
      ∃ p₂, (put (remove w e n).1 e n d').2 = some p₂ ∧ p₂ ≠ p₁ ∧
        removedP (put (remove w e n).1 e n d').1 (some p₁) = true ∧
        ∀ ops, removedP (applyOps (put (remove w e n).1 e n d').1 ops) (some p₁) = true) ∧
    (∀ (w : World) (e : Nat) (n : String) (p : Nat), Inv w → get w e n = some p →
      propRemove w (some p) = (remove w e n).1) ∧
    (∀ (w : World) (p : Nat) (ops : List Op), p < w.props.length →
      removedP w (some p) = true → removedP (applyOps w ops) (some p) = true) := by
  refine ⟨?_, ?_, fun w p ops hlt h => removed_forever ops hlt h⟩
  · intro w e ent n d' p₁ hent hdel hget
    obtain ⟨hres, hrem1, hgetnone, hlen, hentA⟩ := remove_spec hent hget
    obtain ⟨_, _, _, _, hrem⟩ := get_some_elim hget
    obtain ⟨st, hst, _⟩ := get_some_propAt hrem
    have hp₁lt : p₁ < w.props.length := nth_lt_length hst
    refine ⟨by rw [hres], hrem1, ?_⟩
    have hdel' : ({ ent with props := eraseA ent.props n } : Entity).deleted = false := hdel
    obtain ⟨h2, hlen2⟩ := put_fresh n d' hentA hdel' hgetnone
    rw [hlen] at h2
    refine ⟨w.props.length, h2, (Nat.ne_of_lt hp₁lt).symm, ?_, ?_⟩
    · rw [removedP_put e n d' (hlen.symm ▸ hp₁lt)]
      exact hrem1
    · intro ops
      refine removed_forever ops ?_ ?_
      · rw [hlen2, hlen]
        exact Nat.lt_succ_of_lt hp₁lt
      · rw [removedP_put e n d' (hlen.symm ▸ hp₁lt)]
        exact hrem1
  · intro w e n p hInv hget
    obtain ⟨ent, hent, hd, hlk, hrem⟩ := get_some_elim hget
    obtain ⟨st, hst, hatt⟩ := get_some_propAt hrem
    obtain ⟨st', hst', hkey, _, he⟩ := hInv.tableWF e ent (n, p) hent (mem_of_lookupA hlk)
    rw [hst] at hst'
    cases Option.some.inj hst'
    have h1 : propRemove w (some p) =
        detatch (setEnt w e { ent with props := eraseA ent.props st.key }) p := by
      simp [propRemove, hst, he, hent]
    have h2 : (remove w e n).1 =
        detatch (setEnt w e { ent with props := eraseA ent.props n }) p := by
      simp [remove, hent, hd, hlk]
    rw [h1, h2, hkey]

/-- Witness for C6 at concrete inputs. -/
theorem remove_put_allocates_fresh_witness :
    ((remove oneK 0 "k").2 = some 0 ∧
     removedP (remove oneK 0 "k").1 (some 0) = true ∧
     ∃ p₂, (put (remove oneK 0 "k").1 0 "k" []).2 = some p₂ ∧ p₂ ≠ 0 ∧
       removedP (put (remove oneK 0 "k").1 0 "k" []).1 (some 0) = true ∧
       ∀ ops, removedP (applyOps (put (remove oneK 0 "k").1 0 "k" []).1 ops) (some 0) = true) ∧
    propRemove twoK (some 0) = (remove twoK 0 "k").1 ∧
    removedP (applyOps twoKRem [.bumpMiss "k"]) (some 0) = true := by
  have h := remove_put_allocates_fresh
  exact ⟨h.1 oneK 0 ⟨true, [("k", 0)], false⟩ "k" [] 0 rfl rfl (by decide),
    h.2.1 twoK 0 "k" 0 (inv_applyOps inv_init _) (by decide),
    h.2.2 twoKRem 0 [.bumpMiss "k"] (by decide) (by decide)⟩

/-- C7: `Put` on a nil Entity handle panics; `Put` and `Remove` on a real but
already-deleted Entity return nil without any mutation (the store is
returned exactly as it was); on a live Entity `Put` always returns a
non-nil entry. -/
theorem put_nil_panics_deleted_noop :
    (∀ (w : World) (key : String) (d : List Val), putRef w none key d = .panicked) ∧
    (∀ (w : World) (e : Nat) (ent : Entity) (key : String) (d : List Val),
      w.entAt? e = some ent → ent.deleted = true →
      put w e key d = (w, none) ∧ remove w e key = (w, none)) ∧
    (∀ (w : World) (e : Nat) (ent : Entity) (key : String) (d : List Val),
      w.entAt? e = some ent → ent.deleted = false →
      ∃ p, (put w e key d).2 = some p) := by
  refine ⟨fun w key d => rfl, ?_, ?_⟩
  · intro w e ent key d hent hdel
    constructor
    · simp [put, hent, hdel]
    · simp [remove, hent, hdel]
  · intro w e ent key d hent hdel
    obtain ⟨p, h1, _, _⟩ := put_spec key d hent hdel
    exact ⟨p, h1⟩

/-- `oneK` after deleting its only entity. -/
def oneKDel : World := delete oneK (some 0)

/-- Witness for C7 at concrete inputs. -/
theorem put_nil_panics_deleted_noop_witness :
    (put oneKDel 0 "x" [] = (oneKDel, none) ∧ remove oneKDel 0 "x" = (oneKDel, none)) ∧
    ∃ p, (put oneK 0 "x" []).2 = some p := by
  have h := put_nil_panics_deleted_noop
  exact ⟨h.2.1 oneKDel 0 ⟨false, [], true⟩ "x" [] rfl rfl,
    h.2.2 oneK 0 ⟨true, [("k", 0)], false⟩ "x" [] rfl rfl⟩

/-- Unfolding equation of `entityP` at a non-nil reference. -/
theorem entityP_some (w : World) (p : Nat) :
    entityP w (some p) =
      (match w.propAt? p with
       | some st => st.e
       | none => none) := rfl

/-- Branch equation for `Entity.Delete` on an existing Entity. -/
theorem delete_some_eq {w : World} {e : Nat} {ent : Entity}
    (hent : w.entAt? e = some ent) :
    delete w (some e) = setEnt (detachAll w (ent.props.map Prod.snd)) e ⟨false, [], true⟩ := by
  simp [delete, hent]

/-- C8: `Delete()` is idempotent and never fails: it is a no-op on a nil
handle; on a real Entity it marks it deleted, detaches every entry held in
the table (removed flag set, owner back-pointer cleared), discards the
table and clears the universe link; afterwards `Get` is nil and `Has` false
for every name, `Put` returns nil without mutation, a second `Delete`
changes nothing, and the table stays permanently empty under any further
operations. -/
theorem delete_idempotent_terminal :
    (∀ w : World, delete w none = w) ∧
    (∀ (w : World) (e : Nat) (ent : Entity), w.entAt? e = some ent →
      (delete w (some e)).entAt? e = some ⟨false, [], true⟩ ∧
      (∀ kv ∈ ent.props, removedP (delete w (some e)) (some kv.2) = true ∧
        entityP (delete w (some e)) (some kv.2) = none) ∧
      (∀ k, get (delete w (some e)) e k = none ∧ has (delete w (some e)) e k = false) ∧
      (∀ (k : String) (d : List Val), put (delete w (some e)) e k d = (delete w (some e), none)) ∧
      delete (delete w (some e)) (some e) = delete w (some e) ∧
      (∀ (ops : List Op) (k : String), get (applyOps (delete w (some e)) ops) e k = none)) := by
  refine ⟨fun w => rfl, ?_⟩
  intro w e ent hent
  have hres : delete w (some e) =
      setEnt (detachAll w (ent.props.map Prod.snd)) e ⟨false, [], true⟩ :=
    delete_some_eq hent
  have hentE : (delete w (some e)).entAt? e = some ⟨false, [], true⟩ := by
    rw [hres]
    exact entAt?_setEnt_self ((entAt?_congr (entities_detachAll w _) e).symm ▸ hent) _
  refine ⟨hentE, ?_, ?_, ?_, ?_, ?_⟩
  · intro kv hkv
    have hin : kv.2 ∈ ent.props.map Prod.snd := List.mem_map.mpr ⟨kv, hkv, rfl⟩
    have hp : (delete w (some e)).propAt? kv.2 =
        ((w.propAt? kv.2).map fun st =>
          if kv.2 ∈ ent.props.map Prod.snd then { st with attached := false, e := none }
          else st) := by
      rw [hres, propAt?_setEnt, propAt?_detachAll]
    cases hw : w.propAt? kv.2 with
    | none =>
      constructor
      · rw [removedP_some, hp, hw]
        rfl
      · rw [entityP_some, hp, hw]
        rfl
    | some st =>
      constructor
      · rw [removedP_some, hp, hw]
        simp [hin]
      · rw [entityP_some, hp, hw]
        simp [hin]
  · intro k
    constructor
    · simp [get, loadProp, hentE]
    · simp [has, get, loadProp, hentE]
  · intro k d
    simp [put, hentE]
  · have hres₂ : delete (delete w (some e)) (some e) =
        setEnt (detachAll (delete w (some e))
          ((⟨false, [], true⟩ : Entity).props.map Prod.snd)) e ⟨false, [], true⟩ :=
      delete_some_eq hentE
    rw [hres₂]
    show setEnt (delete w (some e)) e ⟨false, [], true⟩ = delete w (some e)
    unfold setEnt
    rw [setNth_self hentE]
  · intro ops k
    have hE := deleted_forever hentE ops
    simp [get, loadProp, hE]

/-- Witness for C8 at a concrete input. -/
theorem delete_idempotent_terminal_witness :
    (delete oneK (some 0)).entAt? 0 = some ⟨false, [], true⟩ ∧
    (removedP (delete oneK (some 0)) (some 0) = true ∧
     entityP (delete oneK (some 0)) (some 0) = none) ∧
    (get (delete oneK (some 0)) 0 "k" = none ∧ has (delete oneK (some 0)) 0 "k" = false) ∧
    put (delete oneK (some 0)) 0 "k" [] = (delete oneK (some 0), none) ∧
    delete (delete oneK (some 0)) (some 0) = delete oneK (some 0) ∧
    get (applyOps (delete oneK (some 0)) [.newEntity true]) 0 "k" = none := by
  have h := (delete_idempotent_terminal.2 oneK 0 ⟨true, [("k", 0)], false⟩ rfl)
  exact ⟨h.1, h.2.1 ("k", 0) (List.mem_singleton.mpr rfl), h.2.2.1 "k",
    h.2.2.2.1 "k" [], h.2.2.2.2.1, h.2.2.2.2.2 [.newEntity true] "k"⟩

/-- C9: the Prop read accessors are nil-safe — `Data` returns nil, `Entity`
returns nil, `Removed` reports true on a nil Prop — while `Key` panics on a
nil Prop; and on a real Prop, `Removed` is true exactly when the attached
flag has been cleared (as `detatch` does). -/
theorem prop_accessor_nil_safety :
    (∀ w : World, dataP w none = Payload.nil) ∧
    (∀ w : World, entityP w none = none) ∧
    (∀ w : World, removedP w none = true) ∧
    (∀ w : World, keyP w none = GoResult.panicked) ∧
    (∀ (w : World) (p : Nat) (st : GoProp), w.propAt? p = some st →
      (removedP w (some p) = true ↔ st.attached = false)) ∧
    (∀ (w : World) (p : Nat) (st : GoProp), w.propAt? p = some st →
      removedP (detatch w p) (some p) = true) := by
  refine ⟨fun w => rfl, fun w => rfl, fun w => rfl, fun w => rfl, ?_, ?_⟩
  · intro w p st hst
    rw [removedP_some, hst]
    simp
  · intro w p st hst
    simp [removedP, propAt?_detatch_self hst]

/-- Witness for C9 at a concrete input. -/
theorem prop_accessor_nil_safety_witness :
    oneK.propAt? 0 = some ⟨some 0, "k", true, .nil⟩ ∧
    (removedP oneK (some 0) = true ↔ (⟨some 0, "k", true, .nil⟩ : GoProp).attached = false) ∧
    removedP (detatch oneK 0) (some 0) = true := by
  have h := prop_accessor_nil_safety
  exact ⟨rfl, h.2.2.2.2.1 oneK 0 ⟨some 0, "k", true, .nil⟩ rfl,
    h.2.2.2.2.2 oneK 0 ⟨some 0, "k", true, .nil⟩ rfl⟩

/-- C10: the structural invariant holds in the empty store, is preserved by
every public operation and by sweeps whose callbacks only use public
operations, and under it a non-nil `Get(k)` result on entity `e` is always a
live entry whose `Key()` is `k` and whose `Entity()` back-pointer is `e`. -/
theorem get_yields_owned_live_entry :
    Inv World.init ∧
    (∀ (w : World) (op : Op), Inv w → Inv (applyOp w op)) ∧
    (∀ (w : World) (ops : List Op), Inv w → Inv (applyOps w ops)) ∧
    (∀ (key : String) (fn : World → Nat → World × Bool) (w : World),
      (∀ w' p, Inv w' → Inv (fn w' p).1) → Inv w → Inv (range w key fn).1) ∧
    (∀ (w : World) (e : Nat) (k : String) (p : Nat), Inv w → get w e k = some p →
      removedP w (some p) = false ∧ keyP w (some p) = .ok k ∧
      entityP w (some p) = some e) := by
  refine ⟨inv_init, fun w op h => inv_applyOp h op, fun w ops h => inv_applyOps h ops,
    fun key fn w hfn h => inv_range hfn h, ?_⟩
  intro w e k p hInv hget
  obtain ⟨ent, hent, hd, hlk, hrem⟩ := get_some_elim hget
  obtain ⟨st, hst, hatt⟩ := get_some_propAt hrem
  obtain ⟨st', hst', hkey, _, he⟩ := hInv.tableWF e ent (k, p) hent (mem_of_lookupA hlk)
  rw [hst] at hst'
  cases Option.some.inj hst'
  refine ⟨hrem, ?_, ?_⟩
  · simp [keyP, hst, hkey]
  · simp [entityP_some, hst, he]

/-- Witness for C10 at concrete inputs. -/
theorem get_yields_owned_live_entry_witness :
    Inv twoK ∧ (removedP twoK (some 1) = false ∧
      keyP twoK (some 1) = .ok "k" ∧ entityP twoK (some 1) = some 1) := by
  have h := get_yields_owned_live_entry
  exact ⟨h.2.2.1 World.init _ h.1,
    h.2.2.2.2 twoK 1 "k" 1 (h.2.2.1 World.init _ h.1) (by decide)⟩

end Ecs

